import Mathlib

/-!
Verification of the linked-list container library (`src/`):
an exclusive-ownership stack (`ok_stack.rs`), an `i32` stack with an explicit
link enum (`bad_stack.rs`), a FIFO queue with a raw tail pointer
(`ok_unsafe_queue.rs`), a doubly-linked deque over `Rc<RefCell<_>>` nodes
(`bad_safe_deque.rs`), and a persistent reference-counted stack
(`persistent_stack.rs`).

The pointer-based structures (queue, deque, persistent stack) are embedded
with an explicit heap: an association list from natural-number node ids to
node records, together with a `fresh` allocation counter.  The `Box`-chain
stacks are embedded directly as inductive chains.  Fallible steps (raw
pointer dereference, `Rc::try_unwrap` + `unwrap`) return `Option`, with
`none` marking the panicking / undefined branch.
-/

namespace LinkedLists

/-! ## Generic association-list heap -/

/-- Update the node stored under key `k` (all entries with that key). -/
def hupd (k : Nat) (f : β → β) (l : List (Nat × β)) : List (Nat × β) :=
  l.map (fun p => (p.1, if p.1 = k then f p.2 else p.2))

/-- Remove every entry with key `k` (deallocation). -/
def hremove (k : Nat) (l : List (Nat × β)) : List (Nat × β) :=
  l.filter (fun p => p.1 != k)

theorem lookup_cons (k a : Nat) (b : β) (t : List (Nat × β)) :
    List.lookup k ((a, b) :: t) = if k = a then some b else List.lookup k t := by
  by_cases h : k = a
  · subst h; simp [List.lookup]
  · simp [List.lookup, beq_eq_false_iff_ne.mpr h, h]

theorem lookup_hupd (k k' : Nat) (f : β → β) (l : List (Nat × β)) :
    List.lookup k (hupd k' f l) =
      if k = k' then (List.lookup k l).map f else List.lookup k l := by
  induction l with
  | nil => simp [hupd, List.lookup]
  | cons p t ih =>
    obtain ⟨a, b⟩ := p
    simp only [hupd, List.map_cons] at *
    rw [lookup_cons, lookup_cons]
    by_cases hka : k = a
    · subst hka
      by_cases hk : k = k' <;> simp [hk]
    · simp only [if_neg hka, ih]

theorem lookup_hremove (k k' : Nat) (l : List (Nat × β)) :
    List.lookup k (hremove k' l) =
      if k = k' then none else List.lookup k l := by
  induction l with
  | nil => simp [hremove, List.lookup]
  | cons p t ih =>
    obtain ⟨a, b⟩ := p
    by_cases hak : a = k'
    · subst hak
      simp only [hremove, List.filter_cons, bne_self_eq_false, Bool.false_eq_true,
        if_false] at *
      rw [ih, lookup_cons]
      by_cases hk : k = a <;> simp [hk]
    · have hb : (a != k') = true := bne_iff_ne.mpr hak
      simp only [hremove, List.filter_cons, hb, if_true] at *
      rw [lookup_cons, ih, lookup_cons]
      by_cases hk : k = a
      · subst hk
        simp [if_neg hak]
      · simp [if_neg hk]

theorem keys_hupd (k : Nat) (f : β → β) (l : List (Nat × β)) :
    (hupd k f l).map Prod.fst = l.map Prod.fst := by
  induction l with
  | nil => rfl
  | cons p t ih => simp only [hupd, List.map_cons] at *; rw [ih]

theorem mem_hupd {l : List (Nat × β)} {p : Nat × β} (h : p ∈ hupd k f l) :
    ∃ q ∈ l, p = (q.1, if q.1 = k then f q.2 else q.2) := by
  simp only [hupd, List.mem_map] at h
  obtain ⟨q, hq, hpq⟩ := h
  exact ⟨q, hq, hpq.symm⟩

theorem mem_hremove {l : List (Nat × β)} {p : Nat × β} (h : p ∈ hremove k l) :
    p ∈ l ∧ p.1 ≠ k := by
  simp only [hremove, List.mem_filter, bne_iff_ne] at h
  exact h

theorem mem_keys_of_lookup {l : List (Nat × β)} (h : List.lookup k l = some v) :
    k ∈ l.map Prod.fst := by
  induction l with
  | nil => simp [List.lookup] at h
  | cons p t ih =>
    obtain ⟨a, b⟩ := p
    rw [lookup_cons] at h
    by_cases hk : k = a
    · subst hk; simp
    · rw [if_neg hk] at h
      simp [ih h]

theorem lookup_isSome_of_mem_keys {l : List (Nat × β)}
    (h : k ∈ l.map Prod.fst) : ∃ v, List.lookup k l = some v := by
  induction l with
  | nil => simp at h
  | cons p t ih =>
    obtain ⟨a, b⟩ := p
    by_cases hk : k = a
    · subst hk; exact ⟨b, by simp [lookup_cons]⟩
    · simp only [List.map_cons, List.mem_cons] at h
      rcases h with h | h
      · exact absurd h hk
      · obtain ⟨v, hv⟩ := ih h
        exact ⟨v, by rw [lookup_cons, if_neg hk]; exact hv⟩

theorem lookup_of_mem_nodup {l : List (Nat × β)}
    (hnd : (l.map Prod.fst).Nodup) (h : (k, v) ∈ l) :
    List.lookup k l = some v := by
  induction l with
  | nil => simp at h
  | cons p t ih =>
    obtain ⟨a, b⟩ := p
    simp only [List.map_cons, List.nodup_cons] at hnd
    rcases List.mem_cons.mp h with h2 | h2
    · cases h2
      simp [lookup_cons]
    · have hk : k ≠ a := by
        intro hk; subst hk
        exact hnd.1 (List.mem_map.mpr ⟨(k, v), h2, rfl⟩)
      rw [lookup_cons, if_neg hk]
      exact ih hnd.2 h2

theorem mem_of_lookup {l : List (Nat × β)} (h : List.lookup k l = some v) :
    (k, v) ∈ l := by
  induction l with
  | nil => simp [List.lookup] at h
  | cons p t ih =>
    obtain ⟨a, b⟩ := p
    rw [lookup_cons] at h
    by_cases hk : k = a
    · rw [if_pos hk] at h
      cases h
      subst hk
      exact List.mem_cons_self _ _
    · rw [if_neg hk] at h
      exact List.mem_cons_of_mem _ (ih h)

/-! ## ExclusiveStack (`src/ok_stack.rs`)

A `Box<Node<T>>` is a heap value the chain owns exclusively, so the owned
chain `Option<Box<Node<T>>>` embeds directly as `Option (OkNode α)`. -/

inductive OkNode (α : Type) : Type where
  | mk (elem : α) (next : Option (OkNode α))

def OkNode.elem : OkNode α → α
  | ⟨e, _⟩ => e

def OkNode.next : OkNode α → Option (OkNode α)
  | ⟨_, n⟩ => n

structure OkStack (α : Type) where
  head : Option (OkNode α)

def OkStack.new : OkStack α := ⟨none⟩

def OkStack.push (s : OkStack α) (elem : α) : OkStack α :=
  ⟨some ⟨elem, s.head⟩⟩

def OkStack.pop (s : OkStack α) : Option α × OkStack α :=
  match s.head with
  | none => (none, ⟨none⟩)
  | some node => (some node.elem, ⟨node.next⟩)

def OkStack.peek (s : OkStack α) : Option α :=
  s.head.map OkNode.elem

/-! ## BadStack (`src/bad_stack.rs`)

Element type fixed to `i32` (embedded as `Int`); the link is the explicit
two-case enum `Link = Empty | More(Box<Node>)`, with the boxed node's two
fields inlined into the `More` constructor. -/

inductive BLink : Type where
  | Empty : BLink
  | More (elem : Int) (next : BLink) : BLink

structure BadStack where
  head : BLink

def BadStack.new : BadStack := ⟨BLink.Empty⟩

def BadStack.push (s : BadStack) (elem : Int) : BadStack :=
  ⟨BLink.More elem s.head⟩

def BadStack.pop (s : BadStack) : Option Int × BadStack :=
  match s.head with
  | BLink.Empty => (none, ⟨BLink.Empty⟩)
  | BLink.More e n => (some e, ⟨n⟩)

/-! ### Stack operation scripts and abstraction to lists -/

/-- A script of public stack operations over `Int` elements. -/
inductive SOp : Type where
  | push (v : Int)
  | pop

/-- Run a script on an `OkStack`, collecting every pop result. -/
def runOk (s : OkStack Int) : List SOp → List (Option Int)
  | [] => []
  | SOp.push v :: ops => runOk (s.push v) ops
  | SOp.pop :: ops => (s.pop).1 :: runOk (s.pop).2 ops

/-- Run a script on a `BadStack`, collecting every pop result. -/
def runBad (s : BadStack) : List SOp → List (Option Int)
  | [] => []
  | SOp.push v :: ops => runBad (s.push v) ops
  | SOp.pop :: ops => (s.pop).1 :: runBad (s.pop).2 ops

def OkNode.toList : OkNode α → List α
  | ⟨e, none⟩ => [e]
  | ⟨e, some n⟩ => e :: n.toList

/-- Abstraction of an owned `Box` chain to the list of its elements. -/
def okLinkToList : Option (OkNode α) → List α
  | none => []
  | some n => n.toList

def BLink.toList : BLink → List Int
  | BLink.Empty => []
  | BLink.More e n => e :: n.toList

theorem okLinkToList_cons (v : α) (h : Option (OkNode α)) :
    okLinkToList (some (OkNode.mk v h)) = v :: okLinkToList h := by
  cases h <;> rfl

theorem run_eq_of_toList_eq (ops : List SOp) :
    ∀ (s : OkStack Int) (b : BadStack), okLinkToList s.head = b.head.toList →
      runOk s ops = runBad b ops := by
  induction ops with
  | nil => intro s b _; rfl
  | cons op ops ih =>
    intro s b h
    cases op with
    | push v =>
      apply ih
      simp only [OkStack.push, BadStack.push, okLinkToList_cons, BLink.toList, h]
    | pop =>
      obtain ⟨sh⟩ := s
      obtain ⟨bh⟩ := b
      cases sh with
      | none =>
        cases bh with
        | Empty => simpa [runOk, runBad, OkStack.pop, BadStack.pop] using ih ⟨none⟩ ⟨BLink.Empty⟩ rfl
        | More e n => simp [okLinkToList, BLink.toList] at h
      | some node =>
        obtain ⟨e, nx⟩ := node
        cases bh with
        | Empty => simp [okLinkToList_cons, BLink.toList] at h
        | More e' n' =>
          rw [okLinkToList_cons] at h
          simp only [BLink.toList, List.cons.injEq] at h
          obtain ⟨he, hn⟩ := h
          subst he
          simp only [runOk, runBad, OkStack.pop, BadStack.pop, OkNode.elem, OkNode.next,
            List.cons.injEq, true_and]
          exact ih ⟨nx⟩ ⟨n'⟩ hn

/-- C5: the ExclusiveStack (`OkStack`) is LIFO: from empty, after
`push 1, push 2, push 3`, successive pops yield `3`, `2`, `1`, and the next
pop returns the absent value `none`. -/
theorem c5_okstack_lifo :
    runOk OkStack.new
        [SOp.push 1, SOp.push 2, SOp.push 3, SOp.pop, SOp.pop, SOp.pop, SOp.pop] =
      [some 3, some 2, some 1, none] := by
  decide

/-- C10: `BadStack` and `OkStack` instantiated at the `i32` element type are
behaviorally equivalent: every script of pushes and pops run from the two
empty containers returns identical results from every pop. -/
theorem c10_badstack_okstack_equiv (ops : List SOp) :
    runBad BadStack.new ops = runOk OkStack.new ops :=
  (run_eq_of_toList_eq ops OkStack.new BadStack.new rfl).symm

/-! ## TailPointerQueue (`src/ok_unsafe_queue.rs`)

The singly-linked `Box` chain lives in an explicit heap of numbered nodes;
`head` is the owning pointer to the first node and `tail` embeds the raw
`*mut Node` (with `none` for the null pointer).  `push` writes through the
raw tail pointer; doing so while it dangles would be undefined behavior and
is embedded as the `none` result. -/

structure QNode (α : Type) where
  elem : α
  next : Option Nat

structure OkUnsafeQueue (α : Type) where
  heap : List (Nat × QNode α)
  head : Option Nat
  tail : Option Nat
  fresh : Nat

def OkUnsafeQueue.new : OkUnsafeQueue α := ⟨[], none, none, 0⟩

def OkUnsafeQueue.push (s : OkUnsafeQueue α) (elem : α) :
    Option (OkUnsafeQueue α) :=
  let n := s.fresh
  match s.tail with
  | some t =>
    if (List.lookup t s.heap).isSome then
      some { heap := (n, ⟨elem, none⟩) ::
               hupd t (fun m => { m with next := some n }) s.heap,
             head := s.head, tail := some n, fresh := n + 1 }
    else none
  | none =>
    some { heap := (n, ⟨elem, none⟩) :: s.heap,
           head := some n, tail := some n, fresh := n + 1 }

def OkUnsafeQueue.pop (s : OkUnsafeQueue α) :
    Option (Option α × OkUnsafeQueue α) :=
  match s.head with
  | none => some (none, s)
  | some h =>
    match List.lookup h s.heap with
    | none => none
    | some nd =>
      some (some nd.elem,
        { heap := hremove h s.heap, head := nd.next,
          tail := if nd.next = none then none else s.tail, fresh := s.fresh })

/-- The owned chain starting at the ids in `ids`: each listed node is
allocated and its `next` field points at the following listed node, the last
one at nothing. -/
def qchainB (heap : List (Nat × QNode α)) : List Nat → Bool
  | [] => true
  | n :: rest =>
    match List.lookup n heap with
    | none => false
    | some nd => nd.next == rest.head? && qchainB heap rest

/-- Well-formedness of a queue state: `ids` lists the nodes of the owned
chain front to back, the heap holds exactly those nodes, `head` points at
the first and the raw `tail` pointer at the last. -/
def QChainOk (s : OkUnsafeQueue α) (ids : List Nat) : Prop :=
  (s.heap.map Prod.fst).Nodup ∧
  (∀ k ∈ s.heap.map Prod.fst, k ∈ ids) ∧
  s.head = ids.head? ∧
  s.tail = ids.getLast? ∧
  qchainB s.heap ids = true ∧
  (∀ n ∈ ids, n < s.fresh) ∧
  ids.Nodup

instance (s : OkUnsafeQueue α) (ids : List Nat) : Decidable (QChainOk s ids) := by
  unfold QChainOk
  exact inferInstance

theorem qchainB_congr {h1 h2 : List (Nat × QNode α)} :
    ∀ ids, (∀ m ∈ ids, List.lookup m h1 = List.lookup m h2) →
      qchainB h1 ids = qchainB h2 ids := by
  intro ids
  induction ids with
  | nil => intro _; rfl
  | cons n rest ih =>
    intro hag
    have hn := hag n (List.mem_cons_self ..)
    simp only [qchainB, hn]
    cases List.lookup n h2 with
    | none => rfl
    | some nd =>
      rw [ih (fun m hm => hag m (List.mem_cons_of_mem _ hm))]

theorem qchain_lookup {heap : List (Nat × QNode α)} :
    ∀ ids, qchainB heap ids = true → ∀ n ∈ ids, ∃ nd, List.lookup n heap = some nd := by
  intro ids
  induction ids with
  | nil => intro _ n hn; simp at hn
  | cons i rest ih =>
    intro hch n hn
    simp only [qchainB] at hch
    cases hl : List.lookup i heap with
    | none => rw [hl] at hch; simp at hch
    | some nd =>
      rw [hl] at hch
      simp only [Bool.and_eq_true] at hch
      rcases List.mem_cons.mp hn with rfl | hn
      · exact ⟨nd, hl⟩
      · exact ih hch.2 n hn

theorem qchainB_cons_some {heap : List (Nat × QNode α)}
    (hl : List.lookup n heap = some nd) :
    qchainB heap (n :: rest) = (nd.next == rest.head? && qchainB heap rest) := by
  show (match List.lookup n heap with
    | none => false
    | some nd => nd.next == rest.head? && qchainB heap rest) = _
  rw [hl]

theorem getLast?_cons_exists (i : Nat) (rest : List Nat) :
    ∃ L, (i :: rest).getLast? = some L := by
  induction rest generalizing i with
  | nil => exact ⟨i, rfl⟩
  | cons j t ih =>
    obtain ⟨L, hL⟩ := ih j
    exact ⟨L, by rw [List.getLast?_cons_cons]; exact hL⟩

theorem qchain_snoc {heap : List (Nat × QNode α)} (a : α) (n L : Nat) :
    ∀ ids, qchainB heap ids = true → ids.getLast? = some L → n ∉ ids →
      ids.Nodup →
      qchainB ((n, (⟨a, none⟩ : QNode α)) ::
          hupd L (fun m => { m with next := some n }) heap) (ids ++ [n]) = true := by
  intro ids
  induction ids with
  | nil => intro _ h; simp at h
  | cons i rest ih =>
    intro hch hlast hn hnd
    have hin : i ≠ n := fun h => hn (h ▸ List.mem_cons_self ..)
    cases hl : List.lookup i heap with
    | none => rw [qchainB] at hch; rw [hl] at hch; simp at hch
    | some nd =>
      rw [qchainB_cons_some hl, Bool.and_eq_true, beq_iff_eq] at hch
      obtain ⟨hnext, hch2⟩ := hch
      have hlookupn :
          List.lookup n ((n, (⟨a, none⟩ : QNode α)) ::
            hupd L (fun m => { m with next := some n }) heap) = some ⟨a, none⟩ := by
        rw [lookup_cons, if_pos rfl]
      cases rest with
      | nil =>
        have hLi : L = i := by
          simp only [List.getLast?_singleton, Option.some.injEq] at hlast
          exact hlast.symm
        subst hLi
        have hlookupL :
            List.lookup L ((n, (⟨a, none⟩ : QNode α)) ::
              hupd L (fun m => { m with next := some n }) heap) =
              some { nd with next := some n } := by
          rw [lookup_cons, if_neg hin, lookup_hupd, if_pos rfl, hl]
          rfl
        show qchainB _ (L :: [n]) = true
        rw [qchainB_cons_some hlookupL, qchainB_cons_some hlookupn]
        simp [qchainB]
      | cons j rest2 =>
        have hlast2 : (j :: rest2).getLast? = some L := by
          rwa [List.getLast?_cons_cons] at hlast
        have hiL : i ≠ L := by
          intro h
          subst h
          exact (List.nodup_cons.mp hnd).1
            (List.mem_of_mem_getLast? (Option.mem_def.mpr hlast2))
        have hlookupi :
            List.lookup i ((n, (⟨a, none⟩ : QNode α)) ::
              hupd L (fun m => { m with next := some n }) heap) = some nd := by
          rw [lookup_cons, if_neg hin, lookup_hupd, if_neg hiL, hl]
        show qchainB _ (i :: ((j :: rest2) ++ [n])) = true
        rw [qchainB_cons_some hlookupi, Bool.and_eq_true, beq_iff_eq]
        refine ⟨?_, ?_⟩
        · rw [hnext]
          rfl
        · exact ih hch2 hlast2 (fun h => hn (List.mem_cons_of_mem _ h))
            (List.nodup_cons.mp hnd).2

/-- `push` preserves well-formedness, appending the fresh node id. -/
theorem qchainOk_push {s : OkUnsafeQueue α} {ids : List Nat}
    (h : QChainOk s ids) (a : α) :
    ∃ s', OkUnsafeQueue.push s a = some s' ∧ QChainOk s' (ids ++ [s.fresh]) := by
  obtain ⟨hnk, hsub, hhd, htl, hch, hfr, hnd⟩ := h
  have hfresh_not_mem : s.fresh ∉ ids := fun hm => lt_irrefl _ (hfr _ hm)
  have hfresh_not_key : s.fresh ∉ s.heap.map Prod.fst := fun hm =>
    lt_irrefl _ (hfr _ (hsub _ hm))
  cases hids : ids with
  | nil =>
    subst hids
    have hhd' : s.head = none := by simpa using hhd
    have htl' : s.tail = none := by simpa using htl
    refine ⟨{ heap := (s.fresh, ⟨a, none⟩) :: s.heap,
              head := some s.fresh, tail := some s.fresh, fresh := s.fresh + 1 }, ?_, ?_⟩
    · simp [OkUnsafeQueue.push, htl']
    refine ⟨?_, ?_, ?_, ?_, ?_, ?_, ?_⟩
    · simp only [List.map_cons, List.nodup_cons]
      exact ⟨hfresh_not_key, hnk⟩
    · intro k hk
      simp only [List.map_cons, List.mem_cons] at hk
      rcases hk with rfl | hk
      · simp
      · exact absurd (hsub k hk) (by simp)
    · simp
    · simp
    · show qchainB _ [s.fresh] = true
      rw [qchainB_cons_some (by rw [lookup_cons, if_pos rfl])]
      simp [qchainB]
    · intro n hn
      simp only [List.nil_append, List.mem_singleton] at hn
      subst hn
      exact Nat.lt_succ_self _
    · simp
  | cons i rest =>
    subst hids
    obtain ⟨L, hlast⟩ := getLast?_cons_exists i rest
    have htail : s.tail = some L := htl.trans hlast
    have hLmem : L ∈ i :: rest := List.mem_of_mem_getLast? (Option.mem_def.mpr hlast)
    obtain ⟨ndL, hndL⟩ := qchain_lookup _ hch L hLmem
    refine ⟨{ heap := (s.fresh, ⟨a, none⟩) ::
                hupd L (fun m => { m with next := some s.fresh }) s.heap,
              head := s.head, tail := some s.fresh, fresh := s.fresh + 1 }, ?_, ?_⟩
    · simp [OkUnsafeQueue.push, htail, hndL]
    refine ⟨?_, ?_, ?_, ?_, ?_, ?_, ?_⟩
    · simp only [List.map_cons, List.nodup_cons, keys_hupd]
      exact ⟨hfresh_not_key, hnk⟩
    · intro k hk
      simp only [List.map_cons, List.mem_cons, keys_hupd] at hk
      rcases hk with rfl | hk
      · simp
      · exact List.mem_append_left _ (hsub k hk)
    · simpa using hhd
    · show some s.fresh = ((i :: rest) ++ [s.fresh]).getLast?
      exact (List.getLast?_concat _).symm
    · exact qchain_snoc a s.fresh L (i :: rest) hch hlast hfresh_not_mem hnd
    · intro n hn
      rcases List.mem_append.mp hn with hn | hn
      · exact Nat.lt_succ_of_lt (hfr n hn)
      · simp only [List.mem_singleton] at hn
        subst hn
        exact Nat.lt_succ_self _
    · simp only [List.nodup_append, List.nodup_singleton, true_and]
      refine ⟨hnd, ?_⟩
      intro x hx
      simp only [List.mem_singleton]
      intro hxn
      exact hfresh_not_mem (hxn ▸ hx)

/-- `pop` preserves well-formedness, dropping the front node id; on the
non-empty chain it returns the front element, and it resets the tail pointer
to null exactly when the chain empties. -/
theorem qchainOk_pop {s : OkUnsafeQueue α} {ids : List Nat}
    (h : QChainOk s ids) :
    ∃ r s', OkUnsafeQueue.pop s = some (r, s') ∧ QChainOk s' ids.tail ∧
      (ids = [] → r = none ∧ s' = s) ∧
      (∀ i rest, ids = i :: rest →
        ∃ nd, List.lookup i s.heap = some nd ∧ r = some nd.elem) := by
  obtain ⟨hnk, hsub, hhd, htl, hch, hfr, hnd⟩ := h
  cases hids : ids with
  | nil =>
    subst hids
    have hhd' : s.head = none := by simpa using hhd
    refine ⟨none, s, by rw [OkUnsafeQueue.pop, hhd'], ?_, fun _ => ⟨rfl, rfl⟩, ?_⟩
    · exact ⟨hnk, hsub, hhd, htl, hch, hfr, hnd⟩
    · intro i rest hcon
      simp at hcon
  | cons i rest =>
    subst hids
    have hhd' : s.head = some i := by simpa using hhd
    cases hl : List.lookup i s.heap with
    | none => rw [qchainB] at hch; rw [hl] at hch; simp at hch
    | some nd =>
      rw [qchainB_cons_some hl, Bool.and_eq_true, beq_iff_eq] at hch
      obtain ⟨hnext, hch2⟩ := hch
      have hi_not_rest : i ∉ rest := (List.nodup_cons.mp hnd).1
      refine ⟨some nd.elem,
        { heap := hremove i s.heap, head := nd.next,
          tail := if nd.next = none then none else s.tail, fresh := s.fresh },
        ?_, ?_, ?_, ?_⟩
      · simp [OkUnsafeQueue.pop, hhd', hl]
      · refine ⟨?_, ?_, ?_, ?_, ?_, ?_, ?_⟩
        · exact List.Nodup.sublist (List.Sublist.map _ (List.filter_sublist _)) hnk
        · intro k hk
          obtain ⟨p, hp, hp1⟩ := List.mem_map.mp hk
          obtain ⟨hpmem, hpne⟩ := mem_hremove hp
          have hmem : k ∈ i :: rest := hsub k (List.mem_map.mpr ⟨p, hpmem, hp1⟩)
          rcases List.mem_cons.mp hmem with rfl | hh
          · exact absurd hp1 (hp1 ▸ hpne)
          · exact hh
        · simpa using hnext
        · show (if nd.next = none then none else s.tail) = rest.getLast?
          rw [hnext]
          cases rest with
          | nil => simp
          | cons j rest2 =>
            have htl2 : s.tail = (j :: rest2).getLast? := by
              rwa [List.getLast?_cons_cons] at htl
            simp only [List.head?_cons, reduceCtorEq, if_neg]
            exact htl2
        · show qchainB (hremove i s.heap) rest = true
          rw [qchainB_congr rest (fun m hm => ?_)]
          · exact hch2
          · rw [lookup_hremove, if_neg]
            intro hmi
            exact hi_not_rest (hmi ▸ hm)
        · intro n hn
          exact hfr n (List.mem_cons_of_mem _ hn)
        · exact (List.nodup_cons.mp hnd).2
      · intro hcon
        simp at hcon
      · intro i' rest' hcon
        injection hcon with h1 h2
        subst h1
        exact ⟨nd, hl, rfl⟩
theorem qchainOk_tail_iff {s : OkUnsafeQueue α} {ids : List Nat}
    (h : QChainOk s ids) :
    s.tail = ids.getLast? ∧ (s.tail = none ↔ s.head = none) := by
  obtain ⟨-, -, hhd, htl, -, -, -⟩ := h
  refine ⟨htl, ?_⟩
  cases ids with
  | nil => simp [hhd, htl]
  | cons i rest =>
    obtain ⟨L, hL⟩ := getLast?_cons_exists i rest
    rw [hhd, htl, hL]
    simp

/-- C3: for the TailPointerQueue, after every complete `push` or `pop` the
raw tail pointer is null exactly when the chain reachable from `head` is
empty; when non-empty it points at the last node of the head chain (the
`getLast?` of the witnessing id list), and a pop that empties the queue
resets it to null. -/
theorem c3_queue_tail_invariant {s : OkUnsafeQueue α} {ids : List Nat}
    (h : QChainOk s ids) (a : α) :
    (∃ s', OkUnsafeQueue.push s a = some s' ∧ ∃ ids', QChainOk s' ids' ∧
       s'.tail = ids'.getLast? ∧ (s'.tail = none ↔ s'.head = none) ∧
       s'.tail ≠ none) ∧
    (∃ r s', OkUnsafeQueue.pop s = some (r, s') ∧ ∃ ids', QChainOk s' ids' ∧
       s'.tail = ids'.getLast? ∧ (s'.tail = none ↔ s'.head = none)) := by
  constructor
  · obtain ⟨s', hpush, hok⟩ := qchainOk_push h a
    obtain ⟨htl, hiff⟩ := qchainOk_tail_iff hok
    refine ⟨s', hpush, ids ++ [s.fresh], hok, htl, hiff, ?_⟩
    rw [htl, List.getLast?_concat]
    simp
  · obtain ⟨r, s', hpop, hok, -, -⟩ := qchainOk_pop h
    obtain ⟨htl, hiff⟩ := qchainOk_tail_iff hok
    exact ⟨r, s', hpop, ids.tail, hok, htl, hiff⟩

/-- Witness for C3 at the empty `Int` queue and a concrete push. -/
theorem c3_queue_tail_invariant_witness :
    QChainOk (OkUnsafeQueue.new : OkUnsafeQueue Int) [] ∧
    ((∃ s', OkUnsafeQueue.push (OkUnsafeQueue.new : OkUnsafeQueue Int) 5 = some s' ∧
        ∃ ids', QChainOk s' ids' ∧ s'.tail = ids'.getLast? ∧
          (s'.tail = none ↔ s'.head = none) ∧ s'.tail ≠ none) ∧
     (∃ r s', OkUnsafeQueue.pop (OkUnsafeQueue.new : OkUnsafeQueue Int) = some (r, s') ∧
        ∃ ids', QChainOk s' ids' ∧ s'.tail = ids'.getLast? ∧
          (s'.tail = none ↔ s'.head = none))) :=
  ⟨by decide, @c3_queue_tail_invariant Int OkUnsafeQueue.new [] (by decide) 5⟩

/-- A script of public queue operations. -/
inductive QOp (α : Type) where
  | push (a : α)
  | pop

/-- Run a queue script, collecting every pop result; a `none` overall result
marks an execution that hit the undefined/panicking branch. -/
def runQueue (s : OkUnsafeQueue α) : List (QOp α) → Option (List (Option α))
  | [] => some []
  | QOp.push a :: ops => (s.push a).bind (fun s' => runQueue s' ops)
  | QOp.pop :: ops => (s.pop).bind (fun r => (runQueue r.2 ops).map (r.1 :: ·))

/-- C4: the TailPointerQueue is FIFO: from empty,
`push 1, push 2, push 3, pop, pop` yields `1` then `2`; after
`push 4, push 5`, three further pops yield `3, 4, 5`, and the next pop
returns the absent value. -/
theorem c4_queue_fifo :
    runQueue (OkUnsafeQueue.new : OkUnsafeQueue Int)
      [QOp.push 1, QOp.push 2, QOp.push 3, QOp.pop, QOp.pop,
       QOp.push 4, QOp.push 5, QOp.pop, QOp.pop, QOp.pop, QOp.pop] =
      some [some 1, some 2, some 3, some 4, some 5, none] := by
  decide

/-! ## PersistentSharedStack (`src/persistent_stack.rs`)

Nodes are `Rc<Node<T>>`: immutable after creation and shared across stack
versions.  The embedding keeps them in an explicit heap of numbered nodes;
`Rc::clone` is copying a node id, so structural sharing is id equality.
Since the claims under verification do not concern teardown, reference
counts are not tracked. -/

structure PNode (α : Type) where
  elem : α
  next : Option Nat

structure PHeap (α : Type) where
  nodes : List (Nat × PNode α)
  fresh : Nat

structure PersistentStack (α : Type) where
  head : Option Nat

def PHeap.empty : PHeap α := ⟨[], 0⟩

def PersistentStack.new : PersistentStack α := ⟨none⟩

/-- `prepend` allocates one node whose `next` field is a clone of the `Rc`
in `self.head` — the same node id, so the whole old chain is shared by
reference, not copied.  Returns the grown heap and the new stack value;
`self` is untouched. -/
def PersistentStack.prepend (s : PersistentStack α) (h : PHeap α) (elem : α) :
    PHeap α × PersistentStack α :=
  (⟨(h.fresh, ⟨elem, s.head⟩) :: h.nodes, h.fresh + 1⟩, ⟨some h.fresh⟩)

/-- `tail()`: a new stack whose head is a clone of the top node's `next`. -/
def PersistentStack.tail (s : PersistentStack α) (h : PHeap α) :
    PersistentStack α :=
  ⟨s.head.bind (fun n => (List.lookup n h.nodes).bind (fun nd => nd.next))⟩

/-- `head()`: optional view of the top element (field `head` holds the link,
so the accessor is named `headElem` here). -/
def PersistentStack.headElem (s : PersistentStack α) (h : PHeap α) : Option α :=
  s.head.bind (fun n => (List.lookup n h.nodes).map (fun nd => nd.elem))

/-- The iterator of `iter()`: holds the shared reference it will yield next. -/
structure PIter where
  next : Option Nat

def PersistentStack.iter (s : PersistentStack α) : PIter := ⟨s.head⟩

/-- One `Iterator::next` step: yield the current node's element and advance
to its `next` link.  Reads only; nothing in the heap is modified. -/
def PIter.step (it : PIter) (h : PHeap α) : Option (α × PIter) :=
  it.next.bind (fun n => (List.lookup n h.nodes).map (fun nd => (nd.elem, ⟨nd.next⟩)))

/-- Drive the iterator to exhaustion under a fuel bound, collecting the
yielded elements. -/
def collect (h : PHeap α) : Nat → PIter → List α
  | 0, _ => []
  | fuel + 1, it =>
    match PIter.step it h with
    | none => []
    | some (a, it') => a :: collect h fuel it'

/-- The chain of ids reachable from the link `cur`, ending at `none`. -/
def pchainB (heap : List (Nat × PNode α)) : Option Nat → List Nat → Bool
  | cur, [] => cur == none
  | cur, n :: rest =>
    cur == some n &&
      (match List.lookup n heap with
       | none => false
       | some nd => pchainB heap nd.next rest)

/-- The elements stored under `ids`, in order. -/
def pelems (heap : List (Nat × PNode α)) (ids : List Nat) : List α :=
  ids.filterMap (fun n => (List.lookup n heap).map (fun nd => nd.elem))

theorem pchain_mem_lookup {heap : List (Nat × PNode α)} :
    ∀ ids cur, pchainB heap cur ids = true →
      ∀ n ∈ ids, ∃ nd, List.lookup n heap = some nd := by
  intro ids
  induction ids with
  | nil => intro _ _ n hn; simp at hn
  | cons i rest ih =>
    intro cur hch n hn
    simp only [pchainB, Bool.and_eq_true, beq_iff_eq] at hch
    obtain ⟨hcur, hch⟩ := hch
    cases hl : List.lookup i heap with
    | none => rw [hl] at hch; simp at hch
    | some nd =>
      rw [hl] at hch
      rcases List.mem_cons.mp hn with rfl | hn
      · exact ⟨nd, hl⟩
      · exact ih nd.next hch n hn

theorem pchainB_congr {h1 h2 : List (Nat × PNode α)} :
    ∀ ids cur, (∀ m ∈ ids, List.lookup m h1 = List.lookup m h2) →
      pchainB h1 cur ids = pchainB h2 cur ids := by
  intro ids
  induction ids with
  | nil => intro _ _; rfl
  | cons i rest ih =>
    intro cur hag
    have hi := hag i (List.mem_cons_self ..)
    simp only [pchainB, hi]
    cases List.lookup i h2 with
    | none => rfl
    | some nd =>
      show (cur == some i && pchainB h1 nd.next rest) =
        (cur == some i && pchainB h2 nd.next rest)
      rw [ih nd.next (fun m hm => hag m (List.mem_cons_of_mem _ hm))]

theorem pelems_congr {h1 h2 : List (Nat × PNode α)} :
    ∀ ids, (∀ m ∈ ids, List.lookup m h1 = List.lookup m h2) →
      pelems h1 ids = pelems h2 ids := by
  intro ids
  induction ids with
  | nil => intro _; rfl
  | cons i rest ih =>
    intro hag
    simp only [pelems, List.filterMap_cons] at *
    rw [hag i (List.mem_cons_self ..), ih (fun m hm => hag m (List.mem_cons_of_mem _ hm))]

theorem collect_pchain {h : PHeap α} :
    ∀ ids cur fuel, pchainB h.nodes cur ids = true → ids.length ≤ fuel →
      collect h fuel ⟨cur⟩ = pelems h.nodes ids := by
  intro ids
  induction ids with
  | nil =>
    intro cur fuel hch _
    simp only [pchainB, beq_iff_eq] at hch
    subst hch
    cases fuel with
    | zero => rfl
    | succ f => simp [collect, PIter.step, pelems]
  | cons i rest ih =>
    intro cur fuel hch hlen
    simp only [pchainB, Bool.and_eq_true, beq_iff_eq] at hch
    obtain ⟨hcur, hch⟩ := hch
    subst hcur
    cases hl : List.lookup i h.nodes with
    | none => rw [hl] at hch; simp at hch
    | some nd =>
      rw [hl] at hch
      cases fuel with
      | zero => simp at hlen
      | succ f =>
        have hstep : PIter.step (⟨some i⟩ : PIter) h = some (nd.elem, ⟨nd.next⟩) := by
          simp [PIter.step, hl]
        show (match PIter.step (⟨some i⟩ : PIter) h with
          | none => []
          | some (a, it') => a :: collect h f it') = pelems h.nodes (i :: rest)
        rw [hstep]
        show nd.elem :: collect h f ⟨nd.next⟩ = pelems h.nodes (i :: rest)
        rw [ih nd.next f hch (Nat.le_of_succ_le_succ hlen)]
        simp [pelems, List.filterMap_cons, hl]

/-- All chain members are allocated below `fresh` when the heap keys are. -/
theorem pchain_mem_lt_fresh {h : PHeap α}
    (hwf : ∀ k ∈ h.nodes.map Prod.fst, k < h.fresh)
    (hch : pchainB h.nodes cur ids = true) :
    ∀ n ∈ ids, n < h.fresh := by
  intro n hn
  obtain ⟨nd, hnd⟩ := pchain_mem_lookup ids cur hch n hn
  exact hwf n (mem_keys_of_lookup hnd)

/-- C6: `prepend x` on stack `a` returns a new container `b` whose top node
holds `x` and whose remainder is, by reference, `a`'s entire chain (the heap
gains exactly the one new node; nothing is copied), while every observation
of `a` — `headElem`, `tail`, iteration — is unchanged. -/
theorem c6_prepend_shares_and_frames (h : PHeap α) (s : PersistentStack α)
    (ids : List Nat) (fuel : Nat)
    (hwf : ∀ k ∈ h.nodes.map Prod.fst, k < h.fresh)
    (hch : pchainB h.nodes s.head ids = true)
    (hfuel : ids.length ≤ fuel) (x : α) :
    (s.prepend h x).2.head = some h.fresh ∧
    List.lookup h.fresh (s.prepend h x).1.nodes = some ⟨x, s.head⟩ ∧
    (s.prepend h x).1.nodes = (h.fresh, ⟨x, s.head⟩) :: h.nodes ∧
    (s.prepend h x).2.headElem (s.prepend h x).1 = some x ∧
    ((s.prepend h x).2.tail (s.prepend h x).1).head = s.head ∧
    s.headElem (s.prepend h x).1 = s.headElem h ∧
    (s.tail (s.prepend h x).1).head = (s.tail h).head ∧
    collect (s.prepend h x).1 fuel s.iter = collect h fuel s.iter := by
  have hmem_lt := pchain_mem_lt_fresh hwf hch
  have hagree : ∀ m ∈ ids,
      List.lookup m (s.prepend h x).1.nodes = List.lookup m h.nodes := by
    intro m hm
    show List.lookup m ((h.fresh, (⟨x, s.head⟩ : PNode α)) :: h.nodes) = _
    rw [lookup_cons, if_neg]
    intro hmf
    exact lt_irrefl _ (hmf ▸ hmem_lt m hm)
  have hlookup_fresh :
      List.lookup h.fresh (s.prepend h x).1.nodes = some ⟨x, s.head⟩ := by
    show List.lookup h.fresh ((h.fresh, (⟨x, s.head⟩ : PNode α)) :: h.nodes) = _
    rw [lookup_cons, if_pos rfl]
  have hhead_cases :
      s.head = none ∨ ∃ n rest, ids = n :: rest ∧ s.head = some n := by
    cases hids : ids with
    | nil =>
      left
      rw [hids] at hch
      simpa [pchainB] using hch
    | cons n rest =>
      right
      rw [hids] at hch
      simp only [pchainB, Bool.and_eq_true, beq_iff_eq] at hch
      exact ⟨n, rest, rfl, hch.1⟩
  have hhead_agree : ∀ n, s.head = some n →
      List.lookup n (s.prepend h x).1.nodes = List.lookup n h.nodes := by
    intro n hn
    rcases hhead_cases with hc | ⟨m, rest, hids, hm⟩
    · rw [hc] at hn; cases hn
    · rw [hm] at hn
      cases hn
      exact hagree n (hids ▸ List.mem_cons_self ..)
  refine ⟨rfl, hlookup_fresh, rfl, ?_, ?_, ?_, ?_, ?_⟩
  · show (⟨some h.fresh⟩ : PersistentStack α).headElem (s.prepend h x).1 = some x
    simp [PersistentStack.headElem, hlookup_fresh]
  · show ((⟨some h.fresh⟩ : PersistentStack α).tail (s.prepend h x).1).head = s.head
    simp [PersistentStack.tail, hlookup_fresh]
  · cases hs : s.head with
    | none => simp [PersistentStack.headElem, hs]
    | some n => simp [PersistentStack.headElem, hs, hhead_agree n hs]
  · cases hs : s.head with
    | none => simp [PersistentStack.tail, hs]
    | some n => simp [PersistentStack.tail, hs, hhead_agree n hs]
  · have hch' : pchainB (s.prepend h x).1.nodes s.head ids = true := by
      rw [pchainB_congr ids s.head hagree]
      exact hch
    show collect (s.prepend h x).1 fuel ⟨s.head⟩ = collect h fuel ⟨s.head⟩
    rw [collect_pchain ids s.head fuel hch' hfuel,
      collect_pchain ids s.head fuel hch hfuel]
    exact pelems_congr ids hagree

/-- Witness for C6 on the one-element stack `new.prepend 1`. -/
theorem c6_prepend_witness :
    (∀ k ∈ (PHeap.mk [(0, (⟨1, none⟩ : PNode Int))] 1).nodes.map Prod.fst,
      k < (PHeap.mk [(0, (⟨1, none⟩ : PNode Int))] 1).fresh) ∧
    pchainB (PHeap.mk [(0, (⟨1, none⟩ : PNode Int))] 1).nodes (some 0) [0] = true ∧
    ((PersistentStack.mk (some 0)).prepend
        (PHeap.mk [(0, (⟨1, none⟩ : PNode Int))] 1) 2).2.headElem
      ((PersistentStack.mk (some 0)).prepend
        (PHeap.mk [(0, (⟨1, none⟩ : PNode Int))] 1) 2).1 = some 2 :=
  ⟨by decide, by decide,
    (c6_prepend_shares_and_frames (PHeap.mk [(0, (⟨1, none⟩ : PNode Int))] 1)
      (PersistentStack.mk (some 0)) [0] 1 (by decide) (by decide)
      (by decide) 2).2.2.2.1⟩

/-- C7: `iter` yields the chain's elements from top to bottom, finitely
(any sufficient fuel gives the same list), and invoking it a second time on
the same container replays exactly the same sequence; the iterator only
reads, so no node is modified. -/
theorem c7_iter_replay (h : PHeap α) (s : PersistentStack α) (ids : List Nat)
    (fuel1 fuel2 : Nat)
    (hch : pchainB h.nodes s.head ids = true)
    (hf1 : ids.length ≤ fuel1) (hf2 : ids.length ≤ fuel2) :
    collect h fuel1 s.iter = pelems h.nodes ids ∧
    collect h fuel2 s.iter = collect h fuel1 s.iter := by
  have h1 : collect h fuel1 s.iter = pelems h.nodes ids :=
    collect_pchain ids s.head fuel1 hch hf1
  have h2 : collect h fuel2 s.iter = pelems h.nodes ids :=
    collect_pchain ids s.head fuel2 hch hf2
  exact ⟨h1, h2.trans h1.symm⟩

/-- Witness for C7 on `b = new.prepend 1 |>.prepend 2 |>.prepend 3`:
iterating yields `[3, 2, 1]`, twice. -/
theorem c7_iter_replay_witness :
    pchainB
        [(2, (⟨3, some 1⟩ : PNode Int)), (1, ⟨2, some 0⟩), (0, ⟨1, none⟩)]
        (some 2) [2, 1, 0] = true ∧
    pelems [(2, (⟨3, some 1⟩ : PNode Int)), (1, ⟨2, some 0⟩), (0, ⟨1, none⟩)]
        [2, 1, 0] = [3, 2, 1] ∧
    collect (PHeap.mk [(2, (⟨3, some 1⟩ : PNode Int)), (1, ⟨2, some 0⟩),
        (0, ⟨1, none⟩)] 3) 3
        (PersistentStack.mk (some 2) : PersistentStack Int).iter =
      pelems [(2, (⟨3, some 1⟩ : PNode Int)), (1, ⟨2, some 0⟩), (0, ⟨1, none⟩)]
        [2, 1, 0] ∧
    collect (PHeap.mk [(2, (⟨3, some 1⟩ : PNode Int)), (1, ⟨2, some 0⟩),
        (0, ⟨1, none⟩)] 3) 5
        (PersistentStack.mk (some 2) : PersistentStack Int).iter =
      collect (PHeap.mk [(2, (⟨3, some 1⟩ : PNode Int)), (1, ⟨2, some 0⟩),
        (0, ⟨1, none⟩)] 3) 3
        (PersistentStack.mk (some 2) : PersistentStack Int).iter :=
  ⟨by decide, by decide,
    (c7_iter_replay (PHeap.mk [(2, (⟨3, some 1⟩ : PNode Int)), (1, ⟨2, some 0⟩),
        (0, ⟨1, none⟩)] 3) (PersistentStack.mk (some 2)) [2, 1, 0] 3 5
      (by decide) (by decide) (by decide)).1,
    (c7_iter_replay (PHeap.mk [(2, (⟨3, some 1⟩ : PNode Int)), (1, ⟨2, some 0⟩),
        (0, ⟨1, none⟩)] 3) (PersistentStack.mk (some 2)) [2, 1, 0] 3 5
      (by decide) (by decide) (by decide)).2⟩

/-! ## SharedMutableDeque (`src/bad_safe_deque.rs`)

Nodes are `Rc<RefCell<Node<T>>>` with `next`/`prev` links; the embedding
keeps them in an explicit heap of numbered nodes.  An `Rc` in a field is a
node id; the strong count of a node is therefore the number of occurrences
of its id in the container's `head`/`tail` fields and in all nodes'
`next`/`prev` fields (plus any local binding).  `pop_front`/`pop_back`
model `Rc::try_unwrap(..).ok().unwrap().into_inner().elem` explicitly: the
extraction succeeds only when no structural reference to the detached node
remains, and the panicking branch is the `none` result. -/

structure DNode (α : Type) where
  elem : α
  next : Option Nat
  prev : Option Nat
  deriving DecidableEq

structure BadSafeDeque (α : Type) where
  heap : List (Nat × DNode α)
  head : Option Nat
  tail : Option Nat
  fresh : Nat

def BadSafeDeque.new : BadSafeDeque α := ⟨[], none, none, 0⟩

def BadSafeDeque.push_front (s : BadSafeDeque α) (elem : α) : BadSafeDeque α :=
  match s.head with
  | some oldHead =>
    { heap := (s.fresh, ⟨elem, some oldHead, none⟩) ::
        hupd oldHead (fun m => { m with prev := some s.fresh }) s.heap,
      head := some s.fresh, tail := s.tail, fresh := s.fresh + 1 }
  | none =>
    { heap := (s.fresh, ⟨elem, none, none⟩) :: s.heap,
      head := some s.fresh, tail := some s.fresh, fresh := s.fresh + 1 }

def BadSafeDeque.push_back (s : BadSafeDeque α) (elem : α) : BadSafeDeque α :=
  match s.tail with
  | some oldTail =>
    { heap := (s.fresh, ⟨elem, none, some oldTail⟩) ::
        hupd oldTail (fun m => { m with next := some s.fresh }) s.heap,
      head := s.head, tail := some s.fresh, fresh := s.fresh + 1 }
  | none =>
    { heap := (s.fresh, ⟨elem, none, none⟩) :: s.heap,
      head := some s.fresh, tail := some s.fresh, fresh := s.fresh + 1 }

/-- Structural references to node `n` held by heap fields (`next`/`prev`
of any allocated node). -/
def heapRefs (l : List (Nat × DNode α)) (n : Nat) : Nat :=
  l.foldr (fun p acc =>
    (if p.2.next = some n then 1 else 0) +
      ((if p.2.prev = some n then 1 else 0) + acc)) 0

/-- Structural references to node `n`: container `head`/`tail` plus heap
fields.  `Rc::try_unwrap` on a popped node succeeds exactly when this is
zero (the popped local binding being the one remaining reference). -/
def refsTo (s : BadSafeDeque α) (n : Nat) : Nat :=
  (if s.head = some n then 1 else 0) +
    ((if s.tail = some n then 1 else 0) + heapRefs s.heap n)

def BadSafeDeque.pop_front (s : BadSafeDeque α) :
    Option (Option α × BadSafeDeque α) :=
  match s.head with
  | none => some (none, s)
  | some oldHead =>
    match List.lookup oldHead s.heap with
    | none => none
    | some nd =>
      let mid : BadSafeDeque α :=
        match nd.next with
        | some newHead =>
          { heap := hupd newHead (fun m => { m with prev := none })
              (hupd oldHead (fun m => { m with next := none }) s.heap),
            head := some newHead, tail := s.tail, fresh := s.fresh }
        | none =>
          { heap := hupd oldHead (fun m => { m with next := none }) s.heap,
            head := none, tail := none, fresh := s.fresh }
      if refsTo mid oldHead = 0 then
        some (some nd.elem, { mid with heap := hremove oldHead mid.heap })
      else none

def BadSafeDeque.pop_back (s : BadSafeDeque α) :
    Option (Option α × BadSafeDeque α) :=
  match s.tail with
  | none => some (none, s)
  | some oldTail =>
    match List.lookup oldTail s.heap with
    | none => none
    | some nd =>
      let mid : BadSafeDeque α :=
        match nd.prev with
        | some newTail =>
          { heap := hupd newTail (fun m => { m with next := none })
              (hupd oldTail (fun m => { m with prev := none }) s.heap),
            head := s.head, tail := some newTail, fresh := s.fresh }
        | none =>
          { heap := hupd oldTail (fun m => { m with prev := none }) s.heap,
            head := none, tail := none, fresh := s.fresh }
      if refsTo mid oldTail = 0 then
        some (some nd.elem, { mid with heap := hremove oldTail mid.heap })
      else none

def BadSafeDeque.peek_front (s : BadSafeDeque α) : Option α :=
  s.head.bind (fun n => (List.lookup n s.heap).map (fun nd => nd.elem))

def BadSafeDeque.peek_back (s : BadSafeDeque α) : Option α :=
  s.tail.bind (fun n => (List.lookup n s.heap).map (fun nd => nd.elem))

/-- The doubly-linked chain: starting after a node referenced by `p`
(`none` at the front), the listed nodes are allocated, each one's `prev`
points at its predecessor (or `p` for the first) and its `next` at its
successor (or nothing for the last). -/
def chainB (heap : List (Nat × DNode α)) : Option Nat → List Nat → Bool
  | _, [] => true
  | p, n :: rest =>
    match List.lookup n heap with
    | none => false
    | some nd => nd.prev == p && (nd.next == rest.head? && chainB heap (some n) rest)

/-- Well-formedness of a deque state: `ids` lists the chain's nodes front
to back, the heap holds exactly those nodes, `head` points at the first and
`tail` at the last. -/
def ChainOk (s : BadSafeDeque α) (ids : List Nat) : Prop :=
  (s.heap.map Prod.fst).Nodup ∧
  (∀ k ∈ s.heap.map Prod.fst, k ∈ ids) ∧
  s.head = ids.head? ∧
  s.tail = ids.getLast? ∧
  chainB s.heap none ids = true ∧
  (∀ n ∈ ids, n < s.fresh) ∧
  ids.Nodup

instance (s : BadSafeDeque α) (ids : List Nat) : Decidable (ChainOk s ids) := by
  unfold ChainOk
  exact inferInstance

theorem chainB_cons_some {heap : List (Nat × DNode α)}
    (hl : List.lookup n heap = some nd) :
    chainB heap p (n :: rest) =
      (nd.prev == p && (nd.next == rest.head? && chainB heap (some n) rest)) := by
  show (match List.lookup n heap with
    | none => false
    | some nd => nd.prev == p && (nd.next == rest.head? && chainB heap (some n) rest)) = _
  rw [hl]

theorem chainB_congr {h1 h2 : List (Nat × DNode α)} :
    ∀ ids p, (∀ m ∈ ids, List.lookup m h1 = List.lookup m h2) →
      chainB h1 p ids = chainB h2 p ids := by
  intro ids
  induction ids with
  | nil => intro _ _; rfl
  | cons n rest ih =>
    intro p hag
    have hn := hag n (List.mem_cons_self ..)
    simp only [chainB, hn]
    cases List.lookup n h2 with
    | none => rfl
    | some nd =>
      show (nd.prev == p && (nd.next == rest.head? && chainB h1 (some n) rest)) =
        (nd.prev == p && (nd.next == rest.head? && chainB h2 (some n) rest))
      rw [ih (some n) (fun m hm => hag m (List.mem_cons_of_mem _ hm))]

theorem chain_lookup {heap : List (Nat × DNode α)} :
    ∀ ids p, chainB heap p ids = true →
      ∀ n ∈ ids, ∃ nd, List.lookup n heap = some nd := by
  intro ids
  induction ids with
  | nil => intro _ _ n hn; simp at hn
  | cons i rest ih =>
    intro p hch n hn
    cases hl : List.lookup i heap with
    | none => rw [chainB] at hch; rw [hl] at hch; simp at hch
    | some nd =>
      rw [chainB_cons_some hl, Bool.and_eq_true, Bool.and_eq_true] at hch
      rcases List.mem_cons.mp hn with rfl | hn
      · exact ⟨nd, hl⟩
      · exact ih (some i) hch.2.2 n hn

/-- Nodes of a chain that does not contain `n` and is not entered from `n`
hold no reference to `n`. -/
theorem chain_no_ref {heap : List (Nat × DNode α)} {n : Nat} :
    ∀ ids p, chainB heap p ids = true → n ∉ ids → p ≠ some n →
      ∀ k ∈ ids, ∀ nd, List.lookup k heap = some nd →
        nd.next ≠ some n ∧ nd.prev ≠ some n := by
  intro ids
  induction ids with
  | nil => intro _ _ _ _ k hk; simp at hk
  | cons i rest ih =>
    intro p hch hn hp k hk nd hnd
    cases hl : List.lookup i heap with
    | none => rw [chainB] at hch; rw [hl] at hch; simp at hch
    | some ndi =>
      rw [chainB_cons_some hl, Bool.and_eq_true, Bool.and_eq_true,
        beq_iff_eq, beq_iff_eq] at hch
      obtain ⟨hprev, hnext, hch2⟩ := hch
      have hin : i ≠ n := fun h => hn (h ▸ List.mem_cons_self ..)
      rcases List.mem_cons.mp hk with rfl | hk2
      · rw [hl] at hnd
        cases hnd
        refine ⟨?_, ?_⟩
        · rw [hnext]
          cases rest with
          | nil => simp
          | cons j t =>
            simp only [List.head?_cons]
            intro hcon
            injection hcon with hjn
            exact hn (List.mem_cons_of_mem _ (hjn ▸ List.mem_cons_self ..))
        · rw [hprev]
          exact hp
      · exact ih (some i) hch2 (fun h => hn (List.mem_cons_of_mem _ h))
          (fun hcon => hin (Option.some.inj hcon)) k hk2 nd hnd

/-- In a chain, if `A.next` points at `b` then `b`'s node points back at
`A`'s id with its `prev` field. -/
theorem chain_adjacent {heap : List (Nat × DNode α)} {a b : Nat}
    {A B : DNode α} :
    ∀ ids p, chainB heap p ids = true → a ∈ ids →
      List.lookup a heap = some A → A.next = some b →
      List.lookup b heap = some B → B.prev = some a := by
  intro ids
  induction ids with
  | nil => intro _ _ ha; simp at ha
  | cons i rest ih =>
    intro p hch ha hA hAn hB
    cases hl : List.lookup i heap with
    | none => rw [chainB] at hch; rw [hl] at hch; simp at hch
    | some ndi =>
      rw [chainB_cons_some hl, Bool.and_eq_true, Bool.and_eq_true,
        beq_iff_eq, beq_iff_eq] at hch
      obtain ⟨hprev, hnext, hch2⟩ := hch
      by_cases hai : a = i
      · subst hai
        rw [hl] at hA
        cases hA
        rw [hnext] at hAn
        cases rest with
        | nil => simp at hAn
        | cons j t =>
          simp only [List.head?_cons] at hAn
          injection hAn with hjb
          rw [hjb] at hch2
          cases hlb : List.lookup b heap with
          | none => rw [chainB] at hch2; rw [hlb] at hch2; simp at hch2
          | some ndb =>
            rw [chainB_cons_some hlb, Bool.and_eq_true, Bool.and_eq_true,
              beq_iff_eq, beq_iff_eq] at hch2
            rw [hlb] at hB
            cases hB
            exact hch2.1
      · exact ih (some i) hch2 ((List.mem_cons.mp ha).resolve_left hai) hA hAn hB

/-- In a chain, a node's `prev` either equals the entry link (when it is
the first listed node) or points at a node whose `next` points back. -/
theorem chain_prev_src {heap : List (Nat × DNode α)} {b : Nat} {B : DNode α} :
    ∀ ids p, chainB heap p ids = true → b ∈ ids →
      List.lookup b heap = some B →
      (ids.head? = some b ∧ B.prev = p) ∨
      (∃ a A, B.prev = some a ∧ List.lookup a heap = some A ∧ A.next = some b) := by
  intro ids
  induction ids with
  | nil => intro _ _ hb; simp at hb
  | cons i rest ih =>
    intro p hch hb hB
    cases hl : List.lookup i heap with
    | none => rw [chainB] at hch; rw [hl] at hch; simp at hch
    | some ndi =>
      rw [chainB_cons_some hl, Bool.and_eq_true, Bool.and_eq_true,
        beq_iff_eq, beq_iff_eq] at hch
      obtain ⟨hprev, hnext, hch2⟩ := hch
      by_cases hbi : b = i
      · subst hbi
        rw [hl] at hB
        cases hB
        left
        exact ⟨rfl, hprev⟩
      · have hbr : b ∈ rest := (List.mem_cons.mp hb).resolve_left hbi
        rcases ih (some i) hch2 hbr hB with ⟨hhd, hpv⟩ | ⟨a, A, h1, h2, h3⟩
        · right
          exact ⟨i, ndi, hpv, hl, by rw [hnext, hhd]⟩
        · right
          exact ⟨a, A, h1, h2, h3⟩

/-- Bidirectional consistency: for any two allocated nodes, `A.next` refers
to `B`'s id exactly when `B.prev` refers to `A`'s id. -/
def biConsistent (s : BadSafeDeque α) : Prop :=
  ∀ a b A B, List.lookup a s.heap = some A → List.lookup b s.heap = some B →
    (A.next = some b ↔ B.prev = some a)

theorem chainOk_biConsistent {s : BadSafeDeque α} {ids : List Nat}
    (h : ChainOk s ids) : biConsistent s := by
  obtain ⟨hnk, hsub, -, -, hch, -, -⟩ := h
  intro a b A B hA hB
  constructor
  · intro hab
    exact chain_adjacent ids none hch (hsub a (mem_keys_of_lookup hA)) hA hab hB
  · intro hba
    rcases chain_prev_src ids none hch (hsub b (mem_keys_of_lookup hB)) hB with
      ⟨-, hpv⟩ | ⟨a', A', h1, h2, h3⟩
    · rw [hpv] at hba
      cases hba
    · rw [h1] at hba
      injection hba with haa
      subst haa
      rw [h2] at hA
      injection hA with hAA
      subst hAA
      exact h3

theorem heapRefs_eq_zero_of {l : List (Nat × DNode α)} {n : Nat}
    (h : ∀ p ∈ l, p.2.next ≠ some n ∧ p.2.prev ≠ some n) : heapRefs l n = 0 := by
  induction l with
  | nil => rfl
  | cons q t ih =>
    have hq := h q (List.mem_cons_self ..)
    show (if q.2.next = some n then 1 else 0) +
      ((if q.2.prev = some n then 1 else 0) + heapRefs t n) = 0
    rw [if_neg hq.1, if_neg hq.2, ih (fun p hp => h p (List.mem_cons_of_mem _ hp))]

/-- `push_front` preserves well-formedness, consing the fresh node id. -/
theorem chainOk_push_front {s : BadSafeDeque α} {ids : List Nat}
    (h : ChainOk s ids) (a : α) :
    ChainOk (BadSafeDeque.push_front s a) (s.fresh :: ids) := by
  obtain ⟨hnk, hsub, hhd, htl, hch, hfr, hnd⟩ := h
  have hfresh_not_mem : s.fresh ∉ ids := fun hm => lt_irrefl _ (hfr _ hm)
  have hfresh_not_key : s.fresh ∉ s.heap.map Prod.fst := fun hm =>
    lt_irrefl _ (hfr _ (hsub _ hm))
  cases hids : ids with
  | nil =>
    subst hids
    have hhd' : s.head = none := by simpa using hhd
    have hkeys : ∀ k ∈ s.heap.map Prod.fst, False := fun k hk => by
      simpa using hsub k hk
    have hps : BadSafeDeque.push_front s a =
        { heap := (s.fresh, ⟨a, none, none⟩) :: s.heap,
          head := some s.fresh, tail := some s.fresh, fresh := s.fresh + 1 } := by
      simp [BadSafeDeque.push_front, hhd']
    rw [hps]
    refine ⟨?_, ?_, rfl, rfl, ?_, ?_, by simp⟩
    · simp only [List.map_cons, List.nodup_cons]
      exact ⟨hfresh_not_key, hnk⟩
    · intro k hk
      simp only [List.map_cons, List.mem_cons] at hk
      rcases hk with rfl | hk
      · simp
      · exact absurd (hkeys k hk) id
    · rw [chainB_cons_some (by rw [lookup_cons, if_pos rfl])]
      simp [chainB]
    · intro n hn
      simp only [List.mem_singleton] at hn
      subst hn
      exact Nat.lt_succ_self _
  | cons i rest =>
    subst hids
    have hhd' : s.head = some i := by simpa using hhd
    have hin : i ≠ s.fresh := fun hcon =>
      hfresh_not_mem (hcon ▸ List.mem_cons_self ..)
    cases hl : List.lookup i s.heap with
    | none => rw [chainB] at hch; rw [hl] at hch; simp at hch
    | some ndi =>
      rw [chainB_cons_some hl, Bool.and_eq_true, Bool.and_eq_true,
        beq_iff_eq, beq_iff_eq] at hch
      obtain ⟨hprev, hnext, hch2⟩ := hch
      have hps : BadSafeDeque.push_front s a =
          { heap := (s.fresh, ⟨a, some i, none⟩) ::
              hupd i (fun m => { m with prev := some s.fresh }) s.heap,
            head := some s.fresh, tail := s.tail, fresh := s.fresh + 1 } := by
        simp [BadSafeDeque.push_front, hhd']
      rw [hps]
      have hlf : List.lookup s.fresh
          ((s.fresh, (⟨a, some i, none⟩ : DNode α)) ::
            hupd i (fun m => { m with prev := some s.fresh }) s.heap) =
          some ⟨a, some i, none⟩ := by
        rw [lookup_cons, if_pos rfl]
      have hli : List.lookup i
          ((s.fresh, (⟨a, some i, none⟩ : DNode α)) ::
            hupd i (fun m => { m with prev := some s.fresh }) s.heap) =
          some { ndi with prev := some s.fresh } := by
        rw [lookup_cons, if_neg hin, lookup_hupd, if_pos rfl, hl]
        rfl
      refine ⟨?_, ?_, rfl, ?_, ?_, ?_, ?_⟩
      · simp only [List.map_cons, List.nodup_cons, keys_hupd]
        exact ⟨hfresh_not_key, hnk⟩
      · intro k hk
        simp only [List.map_cons, List.mem_cons, keys_hupd] at hk
        rcases hk with rfl | hk
        · simp
        · exact List.mem_cons_of_mem _ (hsub k hk)
      · show s.tail = (s.fresh :: i :: rest).getLast?
        rw [htl, List.getLast?_cons_cons]
      · rw [chainB_cons_some hlf, Bool.and_eq_true, Bool.and_eq_true,
          beq_iff_eq, beq_iff_eq]
        refine ⟨rfl, rfl, ?_⟩
        rw [chainB_cons_some hli, Bool.and_eq_true, Bool.and_eq_true,
          beq_iff_eq, beq_iff_eq]
        refine ⟨rfl, hnext, ?_⟩
        rw [chainB_congr rest (some i) (fun m hm => ?_)]
        · exact hch2
        · have hmne_f : m ≠ s.fresh := fun hcon =>
            hfresh_not_mem (hcon ▸ List.mem_cons_of_mem _ hm)
          have hmne_i : m ≠ i := fun hcon =>
            (List.nodup_cons.mp hnd).1 (hcon ▸ hm)
          rw [lookup_cons, if_neg hmne_f, lookup_hupd, if_neg hmne_i]
      · intro n hn
        rcases List.mem_cons.mp hn with rfl | hn
        · exact Nat.lt_succ_self _
        · exact Nat.lt_succ_of_lt (hfr n hn)
      · simp only [List.nodup_cons]
        exact ⟨hfresh_not_mem, List.nodup_cons.mp hnd⟩

/-- Appending a node at the back: the new node's `prev` is the old last
node, whose `next` is redirected to the new node. -/
theorem dchain_snoc {heap : List (Nat × DNode α)} (a : α) (n L : Nat) :
    ∀ ids p, chainB heap p ids = true → ids.getLast? = some L → n ∉ ids →
      ids.Nodup →
      chainB ((n, (⟨a, none, some L⟩ : DNode α)) ::
          hupd L (fun m => { m with next := some n }) heap) p (ids ++ [n]) = true := by
  intro ids
  induction ids with
  | nil => intro _ _ h; simp at h
  | cons i rest ih =>
    intro p hch hlast hn hnd
    have hin : i ≠ n := fun h => hn (h ▸ List.mem_cons_self ..)
    cases hl : List.lookup i heap with
    | none => rw [chainB] at hch; rw [hl] at hch; simp at hch
    | some ndi =>
      rw [chainB_cons_some hl, Bool.and_eq_true, Bool.and_eq_true,
        beq_iff_eq, beq_iff_eq] at hch
      obtain ⟨hprev, hnext, hch2⟩ := hch
      have hlookupn :
          List.lookup n ((n, (⟨a, none, some L⟩ : DNode α)) ::
            hupd L (fun m => { m with next := some n }) heap) =
            some ⟨a, none, some L⟩ := by
        rw [lookup_cons, if_pos rfl]
      cases rest with
      | nil =>
        have hLi : L = i := by
          simp only [List.getLast?_singleton, Option.some.injEq] at hlast
          exact hlast.symm
        subst hLi
        have hlookupL :
            List.lookup L ((n, (⟨a, none, some L⟩ : DNode α)) ::
              hupd L (fun m => { m with next := some n }) heap) =
              some { ndi with next := some n } := by
          rw [lookup_cons, if_neg hin, lookup_hupd, if_pos rfl, hl]
          rfl
        show chainB _ p (L :: [n]) = true
        rw [chainB_cons_some hlookupL, chainB_cons_some hlookupn]
        simp [chainB, hprev]
      | cons j rest2 =>
        have hlast2 : (j :: rest2).getLast? = some L := by
          rwa [List.getLast?_cons_cons] at hlast
        have hiL : i ≠ L := by
          intro h
          subst h
          exact (List.nodup_cons.mp hnd).1
            (List.mem_of_mem_getLast? (Option.mem_def.mpr hlast2))
        have hlookupi :
            List.lookup i ((n, (⟨a, none, some L⟩ : DNode α)) ::
              hupd L (fun m => { m with next := some n }) heap) = some ndi := by
          rw [lookup_cons, if_neg hin, lookup_hupd, if_neg hiL, hl]
        show chainB _ p (i :: ((j :: rest2) ++ [n])) = true
        rw [chainB_cons_some hlookupi, Bool.and_eq_true, Bool.and_eq_true,
          beq_iff_eq, beq_iff_eq]
        refine ⟨hprev, by rw [hnext]; rfl, ?_⟩
        exact ih (some i) hch2 hlast2 (fun h => hn (List.mem_cons_of_mem _ h))
          (List.nodup_cons.mp hnd).2

/-- `push_back` preserves well-formedness, appending the fresh node id. -/
theorem chainOk_push_back {s : BadSafeDeque α} {ids : List Nat}
    (h : ChainOk s ids) (a : α) :
    ChainOk (BadSafeDeque.push_back s a) (ids ++ [s.fresh]) := by
  obtain ⟨hnk, hsub, hhd, htl, hch, hfr, hnd⟩ := h
  have hfresh_not_mem : s.fresh ∉ ids := fun hm => lt_irrefl _ (hfr _ hm)
  have hfresh_not_key : s.fresh ∉ s.heap.map Prod.fst := fun hm =>
    lt_irrefl _ (hfr _ (hsub _ hm))
  cases hids : ids with
  | nil =>
    subst hids
    have htl' : s.tail = none := by simpa using htl
    have hkeys : ∀ k ∈ s.heap.map Prod.fst, False := fun k hk => by
      simpa using hsub k hk
    have hps : BadSafeDeque.push_back s a =
        { heap := (s.fresh, ⟨a, none, none⟩) :: s.heap,
          head := some s.fresh, tail := some s.fresh, fresh := s.fresh + 1 } := by
      simp [BadSafeDeque.push_back, htl']
    rw [hps]
    refine ⟨?_, ?_, rfl, rfl, ?_, ?_, by simp⟩
    · simp only [List.map_cons, List.nodup_cons]
      exact ⟨hfresh_not_key, hnk⟩
    · intro k hk
      simp only [List.map_cons, List.mem_cons] at hk
      rcases hk with rfl | hk
      · simp
      · exact absurd (hkeys k hk) id
    · show chainB _ none [s.fresh] = true
      rw [chainB_cons_some (by rw [lookup_cons, if_pos rfl])]
      simp [chainB]
    · intro n hn
      simp only [List.nil_append, List.mem_singleton] at hn
      subst hn
      exact Nat.lt_succ_self _
  | cons i rest =>
    subst hids
    obtain ⟨L, hlast⟩ := getLast?_cons_exists i rest
    have htail : s.tail = some L := htl.trans hlast
    have hps : BadSafeDeque.push_back s a =
        { heap := (s.fresh, ⟨a, none, some L⟩) ::
            hupd L (fun m => { m with next := some s.fresh }) s.heap,
          head := s.head, tail := some s.fresh, fresh := s.fresh + 1 } := by
      simp [BadSafeDeque.push_back, htail]
    rw [hps]
    refine ⟨?_, ?_, ?_, ?_, ?_, ?_, ?_⟩
    · simp only [List.map_cons, List.nodup_cons, keys_hupd]
      exact ⟨hfresh_not_key, hnk⟩
    · intro k hk
      simp only [List.map_cons, List.mem_cons, keys_hupd] at hk
      rcases hk with rfl | hk
      · simp
      · exact List.mem_append_left _ (hsub k hk)
    · simpa using hhd
    · show some s.fresh = ((i :: rest) ++ [s.fresh]).getLast?
      exact (List.getLast?_concat _).symm
    · exact dchain_snoc a s.fresh L (i :: rest) none hch hlast hfresh_not_mem hnd
    · intro n hn
      rcases List.mem_append.mp hn with hn | hn
      · exact Nat.lt_succ_of_lt (hfr n hn)
      · simp only [List.mem_singleton] at hn
        subst hn
        exact Nat.lt_succ_self _
    · simp only [List.nodup_append, List.nodup_singleton, true_and]
      refine ⟨hnd, ?_⟩
      intro x hx
      simp only [List.mem_singleton]
      intro hxn
      exact hfresh_not_mem (hxn ▸ hx)

/-- `pop_front` on a well-formed deque never panics — after detaching the
front node, no structural reference to it remains, so the modeled
`Rc::try_unwrap` succeeds — and it preserves well-formedness, dropping the
front id. -/
theorem chainOk_pop_front {s : BadSafeDeque α} {ids : List Nat}
    (h : ChainOk s ids) :
    ∃ r s', BadSafeDeque.pop_front s = some (r, s') ∧ ChainOk s' ids.tail ∧
      (ids = [] → r = none ∧ s' = s) ∧
      (∀ i rest, ids = i :: rest →
        ∃ nd, List.lookup i s.heap = some nd ∧ r = some nd.elem) := by
  obtain ⟨hnk, hsub, hhd, htl, hch, hfr, hnd⟩ := h
  cases hids : ids with
  | nil =>
    subst hids
    have hhd' : s.head = none := by simpa using hhd
    refine ⟨none, s, by simp [BadSafeDeque.pop_front, hhd'],
      ⟨hnk, hsub, hhd, htl, hch, hfr, hnd⟩, fun _ => ⟨rfl, rfl⟩, ?_⟩
    intro i rest hcon
    simp at hcon
  | cons i rest =>
    subst hids
    have hhd' : s.head = some i := by simpa using hhd
    cases hl : List.lookup i s.heap with
    | none => rw [chainB] at hch; rw [hl] at hch; simp at hch
    | some nd =>
      rw [chainB_cons_some hl, Bool.and_eq_true, Bool.and_eq_true,
        beq_iff_eq, beq_iff_eq] at hch
      obtain ⟨hprev, hnext, hch2⟩ := hch
      have hi_not_rest : i ∉ rest := (List.nodup_cons.mp hnd).1
      cases rest with
      | nil =>
        have hnext0 : nd.next = none := by simpa using hnext
        have hrefs0 :
            heapRefs (hupd i (fun m => { m with next := none }) s.heap) i = 0 := by
          apply heapRefs_eq_zero_of
          intro p hp
          obtain ⟨q, hq, hpq⟩ := mem_hupd hp
          have hq1 : q.1 = i := by
            simpa using hsub q.1 (List.mem_map.mpr ⟨q, hq, rfl⟩)
          have hq2 : q.2 = nd := by
            have hlk := lookup_of_mem_nodup hnk
              (show (q.1, q.2) ∈ s.heap from hq)
            rw [hq1, hl] at hlk
            exact (Option.some.inj hlk).symm
          subst hpq
          simp [hq1, hq2, hprev]
        have hrefs : refsTo
            ({ heap := hupd i (fun m => { m with next := none }) s.heap,
               head := none, tail := none, fresh := s.fresh } : BadSafeDeque α)
            i = 0 := by
          simp [refsTo, hrefs0]
        refine ⟨some nd.elem,
          { heap := hremove i (hupd i (fun m => { m with next := none }) s.heap),
            head := none, tail := none, fresh := s.fresh }, ?_, ?_, ?_, ?_⟩
        · simp only [BadSafeDeque.pop_front, hhd', hl, hnext0]
          rw [if_pos hrefs]
        · refine ⟨?_, ?_, rfl, rfl, rfl, ?_, ?_⟩
          · exact List.Nodup.sublist (List.Sublist.map _ (List.filter_sublist _))
              (by rw [keys_hupd]; exact hnk)
          · intro k hk
            obtain ⟨p, hp, hp1⟩ := List.mem_map.mp hk
            obtain ⟨hpmem, hpne⟩ := mem_hremove hp
            obtain ⟨q, hq, hpq⟩ := mem_hupd hpmem
            have hq1 : q.1 = i := by
              simpa using hsub q.1 (List.mem_map.mpr ⟨q, hq, rfl⟩)
            rw [hpq] at hpne
            exact absurd hq1 (by simpa [← hp1, hpq] using hpne)
          · intro n hn
            simp at hn
          · simp
        · intro hcon
          simp at hcon
        · intro i' rest' hcon
          injection hcon with h1 h2
          subst h1
          exact ⟨nd, hl, rfl⟩
      | cons j t =>
        have hnextj : nd.next = some j := by simpa using hnext
        have hij : i ≠ j := fun hcon => hi_not_rest (hcon ▸ List.mem_cons_self ..)
        have hi_not_t : i ∉ t := fun hcon =>
          hi_not_rest (List.mem_cons_of_mem _ hcon)
        have hnd2 : (j :: t).Nodup := (List.nodup_cons.mp hnd).2
        have hj_not_t : j ∉ t := (List.nodup_cons.mp hnd2).1
        cases hlj : List.lookup j s.heap with
        | none => rw [chainB] at hch2; rw [hlj] at hch2; simp at hch2
        | some ndj =>
          rw [chainB_cons_some hlj, Bool.and_eq_true, Bool.and_eq_true,
            beq_iff_eq, beq_iff_eq] at hch2
          obtain ⟨hprevj, hnextj2, hch3⟩ := hch2
          obtain ⟨L, hlastJT⟩ := getLast?_cons_exists j t
          have htailL : s.tail = some L := by
            rw [htl, List.getLast?_cons_cons]
            exact hlastJT
          have hLmem : L ∈ j :: t :=
            List.mem_of_mem_getLast? (Option.mem_def.mpr hlastJT)
          have hLi : L ≠ i := fun hcon => hi_not_rest (hcon ▸ hLmem)
          have hlk_i : List.lookup i
              (hupd j (fun m => { m with prev := none })
                (hupd i (fun m => { m with next := none }) s.heap)) =
              some { nd with next := none } := by
            rw [lookup_hupd, if_neg hij, lookup_hupd, if_pos rfl, hl]
            rfl
          have hlk_j : List.lookup j
              (hupd j (fun m => { m with prev := none })
                (hupd i (fun m => { m with next := none }) s.heap)) =
              some { ndj with prev := none } := by
            rw [lookup_hupd, if_pos rfl, lookup_hupd, if_neg (Ne.symm hij), hlj]
            rfl
          have hlk_other : ∀ m, m ≠ i → m ≠ j → List.lookup m
              (hupd j (fun m => { m with prev := none })
                (hupd i (fun m => { m with next := none }) s.heap)) =
              List.lookup m s.heap := by
            intro m hmi hmj
            rw [lookup_hupd, if_neg hmj, lookup_hupd, if_neg hmi]
          have hrefs0 : heapRefs
              (hupd j (fun m => { m with prev := none })
                (hupd i (fun m => { m with next := none }) s.heap)) i = 0 := by
            apply heapRefs_eq_zero_of
            intro p hp
            obtain ⟨q1, hq1mem, hpq1⟩ := mem_hupd hp
            obtain ⟨q, hqmem, hq1q⟩ := mem_hupd hq1mem
            have hqkey : q.1 ∈ i :: j :: t :=
              hsub q.1 (List.mem_map.mpr ⟨q, hqmem, rfl⟩)
            have hqlookup : List.lookup q.1 s.heap = some q.2 :=
              lookup_of_mem_nodup hnk (show (q.1, q.2) ∈ s.heap from hqmem)
            by_cases hqi : q.1 = i
            · have hq2 : q.2 = nd := by
                rw [hqi, hl] at hqlookup
                exact (Option.some.inj hqlookup).symm
              have hp2 : p.2 = { nd with next := none } := by
                rw [hpq1, hq1q]
                simp [hqi, hij, hq2]
              rw [hp2]
              simp [hprev]
            · by_cases hqj : q.1 = j
              · have hq2 : q.2 = ndj := by
                  rw [hqj, hlj] at hqlookup
                  exact (Option.some.inj hqlookup).symm
                have hp2 : p.2 = { ndj with prev := none } := by
                  rw [hpq1, hq1q]
                  simp [hqi, hqj, hq2, Ne.symm hij]
                rw [hp2]
                refine ⟨?_, by simp⟩
                show ndj.next ≠ some i
                rw [hnextj2]
                cases t with
                | nil => simp
                | cons t0 tt =>
                  simp only [List.head?_cons]
                  intro hcon
                  injection hcon with ht0
                  exact hi_not_t (ht0 ▸ List.mem_cons_self ..)
              · have hqt : q.1 ∈ t := by
                  rcases List.mem_cons.mp hqkey with hcon | hk2
                  · exact absurd hcon hqi
                  · exact (List.mem_cons.mp hk2).resolve_left hqj
                have hp2 : p.2 = q.2 := by
                  rw [hpq1, hq1q]
                  simp [hqi, hqj]
                rw [hp2]
                exact chain_no_ref t (some j) hch3 hi_not_t
                  (fun hcon => hij (Option.some.inj hcon).symm) q.1 hqt q.2 hqlookup
          have hrefs : refsTo
              ({ heap := hupd j (fun m => { m with prev := none })
                    (hupd i (fun m => { m with next := none }) s.heap),
                 head := some j, tail := s.tail, fresh := s.fresh } :
                BadSafeDeque α) i = 0 := by
            simp only [refsTo, hrefs0]
            rw [if_neg (fun hcon => hij (Option.some.inj hcon).symm),
              if_neg (fun hcon => hLi (Option.some.inj (htailL ▸ hcon)))]
          refine ⟨some nd.elem,
            { heap := hremove i
                (hupd j (fun m => { m with prev := none })
                  (hupd i (fun m => { m with next := none }) s.heap)),
              head := some j, tail := s.tail, fresh := s.fresh }, ?_, ?_, ?_, ?_⟩
          · simp only [BadSafeDeque.pop_front, hhd', hl, hnextj]
            rw [if_pos hrefs]
          · refine ⟨?_, ?_, rfl, ?_, ?_, ?_, ?_⟩
            · exact List.Nodup.sublist (List.Sublist.map _ (List.filter_sublist _))
                (by rw [keys_hupd, keys_hupd]; exact hnk)
            · intro k hk
              obtain ⟨p, hp, hp1⟩ := List.mem_map.mp hk
              obtain ⟨hpmem, hpne⟩ := mem_hremove hp
              obtain ⟨q1, hq1mem, hpq1⟩ := mem_hupd hpmem
              obtain ⟨q, hqmem, hq1q⟩ := mem_hupd hq1mem
              have hqkey : k ∈ i :: j :: t := by
                have : p.1 = q.1 := by rw [hpq1, hq1q]
                rw [← hp1, this]
                exact hsub q.1 (List.mem_map.mpr ⟨q, hqmem, rfl⟩)
              have hki : k ≠ i := by
                rw [← hp1]
                rwa [hpq1, hq1q] at hpne ⊢
              exact (List.mem_cons.mp hqkey).resolve_left hki
            · show s.tail = (j :: t).getLast?
              rw [htl, List.getLast?_cons_cons]
            · show chainB _ none (j :: t) = true
              have hlk_j' : List.lookup j (hremove i
                  (hupd j (fun m => { m with prev := none })
                    (hupd i (fun m => { m with next := none }) s.heap))) =
                  some { ndj with prev := none } := by
                rw [lookup_hremove, if_neg (Ne.symm hij)]
                exact hlk_j
              rw [chainB_cons_some hlk_j', Bool.and_eq_true, Bool.and_eq_true,
                beq_iff_eq, beq_iff_eq]
              refine ⟨rfl, hnextj2, ?_⟩
              rw [chainB_congr t (some j) (fun m hm => ?_)]
              · exact hch3
              · have hmi : m ≠ i := fun hcon => hi_not_t (hcon ▸ hm)
                have hmj : m ≠ j := fun hcon => hj_not_t (hcon ▸ hm)
                rw [lookup_hremove, if_neg hmi]
                exact hlk_other m hmi hmj
            · intro n hn
              exact hfr n (List.mem_cons_of_mem _ hn)
            · exact hnd2
          · intro hcon
            simp at hcon
          · intro i' rest' hcon
            injection hcon with h1 h2
            subst h1
            exact ⟨nd, hl, rfl⟩

/-- The last node of a chain: `next` is empty and `prev` points at the
second-to-last node (or at the entry link for a singleton). -/
theorem chain_last_node {heap : List (Nat × DNode α)} {L : Nat} :
    ∀ t p, chainB heap p (t ++ [L]) = true →
      ∃ nd, List.lookup L heap = some nd ∧ nd.next = none ∧
        ((t = [] ∧ nd.prev = p) ∨
         (∃ M, t.getLast? = some M ∧ nd.prev = some M)) := by
  intro t
  induction t with
  | nil =>
    intro p hch
    rw [List.nil_append] at hch
    cases hl : List.lookup L heap with
    | none => rw [chainB] at hch; rw [hl] at hch; simp at hch
    | some nd =>
      rw [chainB_cons_some hl, Bool.and_eq_true, Bool.and_eq_true,
        beq_iff_eq, beq_iff_eq] at hch
      exact ⟨nd, rfl, by simpa using hch.2.1, Or.inl ⟨rfl, hch.1⟩⟩
  | cons i t2 ih =>
    intro p hch
    rw [List.cons_append] at hch
    cases hl : List.lookup i heap with
    | none => rw [chainB] at hch; rw [hl] at hch; simp at hch
    | some ndi =>
      rw [chainB_cons_some hl, Bool.and_eq_true, Bool.and_eq_true,
        beq_iff_eq, beq_iff_eq] at hch
      obtain ⟨nd, hndL, hnone, hrest⟩ := ih (some i) hch.2.2
      refine ⟨nd, hndL, hnone, Or.inr ?_⟩
      rcases hrest with ⟨ht2, hpv⟩ | ⟨M, hM, hpv⟩
      · subst ht2
        exact ⟨i, rfl, hpv⟩
      · cases t2 with
        | nil => simp at hM
        | cons a b =>
          refine ⟨M, ?_, hpv⟩
          rw [List.getLast?_cons_cons]
          exact hM
/-- No node of the proper prefix of a chain refers to the last node by
`prev`, and only the second-to-last refers to it by `next`. -/
theorem chain_prefix_no_ref {heap : List (Nat × DNode α)} {L : Nat} :
    ∀ t p, chainB heap p (t ++ [L]) = true → L ∉ t → p ≠ some L →
      ∀ k ∈ t, ∀ nd, List.lookup k heap = some nd →
        nd.prev ≠ some L ∧ (nd.next = some L → t.getLast? = some k) := by
  intro t
  induction t with
  | nil => intro p _ _ _ k hk; simp at hk
  | cons i t2 ih =>
    intro p hch hLt hp k hk nd hnd
    rw [List.cons_append] at hch
    cases hl : List.lookup i heap with
    | none => rw [chainB] at hch; rw [hl] at hch; simp at hch
    | some ndi =>
      rw [chainB_cons_some hl, Bool.and_eq_true, Bool.and_eq_true,
        beq_iff_eq, beq_iff_eq] at hch
      obtain ⟨hprev, hnext, hch2⟩ := hch
      have hiL : i ≠ L := fun h => hLt (h ▸ List.mem_cons_self ..)
      have hLt2 : L ∉ t2 := fun h => hLt (List.mem_cons_of_mem _ h)
      rcases List.mem_cons.mp hk with rfl | hk2
      · rw [hl] at hnd
        cases hnd
        refine ⟨by rw [hprev]; exact hp, ?_⟩
        intro hn
        rw [hnext] at hn
        cases t2 with
        | nil => simp
        | cons a b =>
          exfalso
          rw [List.cons_append, List.head?_cons] at hn
          injection hn with ha
          exact hLt2 (ha ▸ List.mem_cons_self ..)
      · have hrec := ih (some i) hch2 hLt2
          (fun hcon => hiL (Option.some.inj hcon)) k hk2 nd hnd
        refine ⟨hrec.1, ?_⟩
        intro hn
        cases t2 with
        | nil => simp at hk2
        | cons a b =>
          rw [List.getLast?_cons_cons]
          exact hrec.2 hn

/-- Clearing the second-to-last node's `next` turns a chain with its last
node removed into a chain. -/
theorem chain_take_back {heap heap' : List (Nat × DNode α)} {L : Nat} :
    ∀ t p, chainB heap p (t ++ [L]) = true → t.Nodup →
      (∀ k ∈ t, List.lookup k heap' =
        if t.getLast? = some k then
          Option.map (fun m => { m with next := none }) (List.lookup k heap)
        else List.lookup k heap) →
      chainB heap' p t = true := by
  intro t
  induction t with
  | nil => intro p _ _ _; rfl
  | cons i t2 ih =>
    intro p hch hnd hag
    rw [List.cons_append] at hch
    cases hl : List.lookup i heap with
    | none => rw [chainB] at hch; rw [hl] at hch; simp at hch
    | some ndi =>
      rw [chainB_cons_some hl, Bool.and_eq_true, Bool.and_eq_true,
        beq_iff_eq, beq_iff_eq] at hch
      obtain ⟨hprev, hnext, hch2⟩ := hch
      cases t2 with
      | nil =>
        have h1 := hag i (List.mem_cons_self ..)
        rw [if_pos (show ([i] : List Nat).getLast? = some i from rfl), hl] at h1
        rw [chainB_cons_some (show List.lookup i heap' =
          some { ndi with next := none } from h1)]
        simp [chainB, hprev]
      | cons a b =>
        have hit2 : i ∉ a :: b := (List.nodup_cons.mp hnd).1
        have hlast_ne : ¬((i :: a :: b).getLast? = some i) := by
          rw [List.getLast?_cons_cons]
          intro hcon
          exact hit2 (List.mem_of_mem_getLast? (Option.mem_def.mpr hcon))
        have h1 := hag i (List.mem_cons_self ..)
        rw [if_neg hlast_ne, hl] at h1
        rw [chainB_cons_some h1, Bool.and_eq_true, Bool.and_eq_true,
          beq_iff_eq, beq_iff_eq]
        refine ⟨hprev, by rw [hnext]; rfl, ?_⟩
        refine ih (some i) hch2 (List.nodup_cons.mp hnd).2 ?_
        intro k hk
        have := hag k (List.mem_cons_of_mem _ hk)
        rwa [List.getLast?_cons_cons] at this

theorem nodup_concat_parts {t : List Nat} {L : Nat}
    (h : (t ++ [L]).Nodup) : t.Nodup ∧ L ∉ t := by
  rw [List.nodup_append] at h
  exact ⟨h.1, fun hm => h.2.2 hm (List.mem_singleton.mpr rfl)⟩

/-- `pop_back` on a well-formed deque never panics — after detaching the
back node, no structural reference to it remains, so the modeled
`Rc::try_unwrap` succeeds — and it preserves well-formedness, dropping the
back id. -/
theorem chainOk_pop_back {s : BadSafeDeque α} {ids : List Nat}
    (h : ChainOk s ids) :
    ∃ r s', BadSafeDeque.pop_back s = some (r, s') ∧ ChainOk s' ids.dropLast ∧
      (ids = [] → r = none ∧ s' = s) ∧
      (∀ L, ids.getLast? = some L →
        ∃ nd, List.lookup L s.heap = some nd ∧ r = some nd.elem) := by
  obtain ⟨hnk, hsub, hhd, htl, hch, hfr, hnd⟩ := h
  rcases List.eq_nil_or_concat ids with rfl | ⟨t, L, hids⟩
  · have htl' : s.tail = none := by simpa using htl
    refine ⟨none, s, by simp [BadSafeDeque.pop_back, htl'],
      ⟨hnk, hsub, hhd, htl, hch, hfr, hnd⟩, fun _ => ⟨rfl, rfl⟩, ?_⟩
    intro L hcon
    simp at hcon
  · rw [List.concat_eq_append] at hids
    subst hids
    obtain ⟨hndt, hLt⟩ := nodup_concat_parts hnd
    have htl' : s.tail = some L := by rw [htl, List.getLast?_concat]
    obtain ⟨nd, hndL, hnext_none, hrest⟩ := chain_last_node t none hch
    have hdrop : (t ++ [L]).dropLast = t := List.dropLast_concat ..
    rcases hrest with ⟨ht0, hprev_none⟩ | ⟨M, hMlast, hprevM⟩
    · subst ht0
      have hrefs0 :
          heapRefs (hupd L (fun m => { m with prev := none }) s.heap) L = 0 := by
        apply heapRefs_eq_zero_of
        intro p hp
        obtain ⟨q, hq, hpq⟩ := mem_hupd hp
        have hq1 : q.1 = L := by
          simpa using hsub q.1 (List.mem_map.mpr ⟨q, hq, rfl⟩)
        have hq2 : q.2 = nd := by
          have hlk := lookup_of_mem_nodup hnk
            (show (q.1, q.2) ∈ s.heap from hq)
          rw [hq1, hndL] at hlk
          exact (Option.some.inj hlk).symm
        subst hpq
        simp [hq1, hq2, hnext_none]
      have hrefs : refsTo
          ({ heap := hupd L (fun m => { m with prev := none }) s.heap,
             head := none, tail := none, fresh := s.fresh } : BadSafeDeque α)
          L = 0 := by
        simp [refsTo, hrefs0]
      refine ⟨some nd.elem,
        { heap := hremove L (hupd L (fun m => { m with prev := none }) s.heap),
          head := none, tail := none, fresh := s.fresh }, ?_, ?_, ?_, ?_⟩
      · simp only [BadSafeDeque.pop_back, htl', hndL, hprev_none]
        rw [if_pos hrefs]
      · rw [hdrop]
        refine ⟨?_, ?_, rfl, rfl, rfl, ?_, ?_⟩
        · exact List.Nodup.sublist (List.Sublist.map _ (List.filter_sublist _))
            (by rw [keys_hupd]; exact hnk)
        · intro k hk
          obtain ⟨p, hp, hp1⟩ := List.mem_map.mp hk
          obtain ⟨hpmem, hpne⟩ := mem_hremove hp
          obtain ⟨q, hq, hpq⟩ := mem_hupd hpmem
          have hq1 : q.1 = L := by
            simpa using hsub q.1 (List.mem_map.mpr ⟨q, hq, rfl⟩)
          rw [hpq] at hpne
          exact absurd hq1 (by simpa [← hp1, hpq] using hpne)
        · intro n hn
          simp at hn
        · simp
      · intro hcon
        simp at hcon
      · intro L' hL'
        obtain rfl : L = L' := by simpa using hL'
        exact ⟨nd, hndL, rfl⟩
    · have htne : t ≠ [] := by
        intro hcon
        rw [hcon] at hMlast
        simp at hMlast
      obtain ⟨t0, t1, rfl⟩ : ∃ t0 t1, t = t0 :: t1 := by
        cases t with
        | nil => exact absurd rfl htne
        | cons a b => exact ⟨a, b, rfl⟩
      have hMmem : M ∈ t0 :: t1 :=
        List.mem_of_mem_getLast? (Option.mem_def.mpr hMlast)
      have hML : M ≠ L := fun hcon => hLt (hcon ▸ hMmem)
      obtain ⟨ndM, hndM⟩ := chain_lookup _ none hch M (List.mem_append_left _ hMmem)
      have hhd' : s.head = some t0 := by
        rw [hhd, List.cons_append, List.head?_cons]
      have ht0L : t0 ≠ L := fun hcon => hLt (hcon ▸ List.mem_cons_self ..)
      have hpfx := chain_prefix_no_ref (t0 :: t1) none hch hLt (by simp)
      have hrefs0 : heapRefs
          (hupd M (fun m => { m with next := none })
            (hupd L (fun m => { m with prev := none }) s.heap)) L = 0 := by
        apply heapRefs_eq_zero_of
        intro p hp
        obtain ⟨q1, hq1mem, hpq1⟩ := mem_hupd hp
        obtain ⟨q, hqmem, hq1q⟩ := mem_hupd hq1mem
        have hqkey : q.1 ∈ (t0 :: t1) ++ [L] :=
          hsub q.1 (List.mem_map.mpr ⟨q, hqmem, rfl⟩)
        have hqlookup : List.lookup q.1 s.heap = some q.2 :=
          lookup_of_mem_nodup hnk (show (q.1, q.2) ∈ s.heap from hqmem)
        by_cases hqL : q.1 = L
        · have hq2 : q.2 = nd := by
            rw [hqL, hndL] at hqlookup
            exact (Option.some.inj hqlookup).symm
          have hp2 : p.2 = { nd with prev := none } := by
            rw [hpq1, hq1q]
            simp [hqL, Ne.symm hML, hq2]
          rw [hp2]
          simp [hnext_none]
        · by_cases hqM : q.1 = M
          · have hq2 : q.2 = ndM := by
              rw [hqM, hndM] at hqlookup
              exact (Option.some.inj hqlookup).symm
            have hp2 : p.2 = { ndM with next := none } := by
              rw [hpq1, hq1q]
              simp [hqM, hML, hq2, hqL]
            rw [hp2]
            refine ⟨by simp, ?_⟩
            show ndM.prev ≠ some L
            exact (hpfx M hMmem ndM hndM).1
          · have hqt : q.1 ∈ t0 :: t1 := by
              rcases List.mem_append.mp hqkey with hm | hm
              · exact hm
              · exact absurd (List.mem_singleton.mp hm) hqL
            have hp2 : p.2 = q.2 := by
              rw [hpq1, hq1q]
              simp [hqL, hqM]
            rw [hp2]
            refine ⟨?_, (hpfx q.1 hqt q.2 hqlookup).1⟩
            intro hcon
            have hlast := (hpfx q.1 hqt q.2 hqlookup).2 hcon
            rw [hMlast] at hlast
            exact hqM (Option.some.inj hlast).symm
      have hrefs : refsTo
          ({ heap := hupd M (fun m => { m with next := none })
                (hupd L (fun m => { m with prev := none }) s.heap),
             head := s.head, tail := some M, fresh := s.fresh } :
            BadSafeDeque α) L = 0 := by
        simp only [refsTo, hrefs0]
        rw [if_neg (fun hcon => ht0L (Option.some.inj (hhd'.symm.trans hcon))),
          if_neg (fun hcon => hML (Option.some.inj hcon))]
      refine ⟨some nd.elem,
        { heap := hremove L
            (hupd M (fun m => { m with next := none })
              (hupd L (fun m => { m with prev := none }) s.heap)),
          head := s.head, tail := some M, fresh := s.fresh }, ?_, ?_, ?_, ?_⟩
      · simp only [BadSafeDeque.pop_back, htl', hndL, hprevM]
        rw [if_pos hrefs]
      · rw [hdrop]
        refine ⟨?_, ?_, ?_, ?_, ?_, ?_, hndt⟩
        · exact List.Nodup.sublist (List.Sublist.map _ (List.filter_sublist _))
            (by rw [keys_hupd, keys_hupd]; exact hnk)
        · intro k hk
          obtain ⟨p, hp, hp1⟩ := List.mem_map.mp hk
          obtain ⟨hpmem, hpne⟩ := mem_hremove hp
          obtain ⟨q1, hq1mem, hpq1⟩ := mem_hupd hpmem
          obtain ⟨q, hqmem, hq1q⟩ := mem_hupd hq1mem
          have hqkey : k ∈ (t0 :: t1) ++ [L] := by
            have hk1 : p.1 = q.1 := by rw [hpq1, hq1q]
            rw [← hp1, hk1]
            exact hsub q.1 (List.mem_map.mpr ⟨q, hqmem, rfl⟩)
          have hkL : k ≠ L := by
            rw [← hp1]
            rwa [hpq1, hq1q] at hpne ⊢
          rcases List.mem_append.mp hqkey with hm | hm
          · exact hm
          · exact absurd (List.mem_singleton.mp hm) hkL
        · show s.head = (t0 :: t1).head?
          rw [hhd']
          rfl
        · show some M = (t0 :: t1).getLast?
          exact hMlast.symm
        · show chainB _ none (t0 :: t1) = true
          refine chain_take_back (t0 :: t1) none hch hndt ?_
          intro k hk
          have hkL : k ≠ L := fun hcon => hLt (hcon ▸ hk)
          rw [lookup_hremove, if_neg hkL]
          by_cases hkM : k = M
          · subst hkM
            rw [lookup_hupd, if_pos rfl, lookup_hupd, if_neg hML, if_pos hMlast]
          · rw [lookup_hupd, if_neg hkM, lookup_hupd, if_neg hkL,
              if_neg (fun hcon => hkM (Option.some.inj (hMlast.symm.trans hcon)).symm)]
        · intro n hn
          exact hfr n (List.mem_append_left _ hn)
      · intro hcon
        simp at hcon
      · intro L' hL'
        rw [List.getLast?_concat] at hL'
        have : L' = L := (Option.some.inj hL').symm
        subst this
        exact ⟨nd, hndL, rfl⟩

theorem chainOk_new : ChainOk (BadSafeDeque.new : BadSafeDeque α) [] := by
  refine ⟨by simp [BadSafeDeque.new], ?_, rfl, rfl, rfl, ?_, by simp⟩
  · intro k hk
    simp [BadSafeDeque.new] at hk
  · intro n hn
    simp at hn

/-- States of the deque reachable from `new` by complete public operations. -/
inductive Reachable : BadSafeDeque α → Prop where
  | new : Reachable BadSafeDeque.new
  | push_front (s : BadSafeDeque α) (a : α) :
      Reachable s → Reachable (BadSafeDeque.push_front s a)
  | push_back (s : BadSafeDeque α) (a : α) :
      Reachable s → Reachable (BadSafeDeque.push_back s a)
  | pop_front (s s' : BadSafeDeque α) (r : Option α) :
      Reachable s → BadSafeDeque.pop_front s = some (r, s') → Reachable s'
  | pop_back (s s' : BadSafeDeque α) (r : Option α) :
      Reachable s → BadSafeDeque.pop_back s = some (r, s') → Reachable s'

theorem reachable_chainOk {s : BadSafeDeque α} (h : Reachable s) :
    ∃ ids, ChainOk s ids := by
  induction h with
  | new => exact ⟨[], chainOk_new⟩
  | push_front s a _ ih =>
    obtain ⟨ids, hok⟩ := ih
    exact ⟨s.fresh :: ids, chainOk_push_front hok a⟩
  | push_back s a _ ih =>
    obtain ⟨ids, hok⟩ := ih
    exact ⟨ids ++ [s.fresh], chainOk_push_back hok a⟩
  | pop_front s s' r _ he ih =>
    obtain ⟨ids, hok⟩ := ih
    obtain ⟨r0, s0, he0, hok0, -, -⟩ := chainOk_pop_front hok
    rw [he0] at he
    injection he with hpair
    injection hpair with hr hs
    exact ⟨ids.tail, hs ▸ hok0⟩
  | pop_back s s' r _ he ih =>
    obtain ⟨ids, hok⟩ := ih
    obtain ⟨r0, s0, he0, hok0, -, -⟩ := chainOk_pop_back hok
    rw [he0] at he
    injection he with hpair
    injection hpair with hr hs
    exact ⟨ids.dropLast, hs ▸ hok0⟩

/-- C1: after every complete public deque operation (`push_front`,
`push_back`, `pop_front`, `pop_back`) applied to a well-formed state, the
chain is bidirectionally consistent — `A.next` refers to `B` exactly when
`B.prev` refers to `A` — and it also holds before (nothing is said about
intermediate states inside an operation). -/
theorem c1_deque_biconsistent {s : BadSafeDeque α} {ids : List Nat}
    (h : ChainOk s ids) (a : α) :
    biConsistent s ∧
    biConsistent (BadSafeDeque.push_front s a) ∧
    biConsistent (BadSafeDeque.push_back s a) ∧
    (∀ r s', BadSafeDeque.pop_front s = some (r, s') → biConsistent s') ∧
    (∀ r s', BadSafeDeque.pop_back s = some (r, s') → biConsistent s') := by
  refine ⟨chainOk_biConsistent h, chainOk_biConsistent (chainOk_push_front h a),
    chainOk_biConsistent (chainOk_push_back h a), ?_, ?_⟩
  · intro r s' he
    obtain ⟨r0, s0, he0, hok0, -, -⟩ := chainOk_pop_front h
    rw [he0] at he
    injection he with hpair
    injection hpair with hr hs
    exact hs ▸ chainOk_biConsistent hok0
  · intro r s' he
    obtain ⟨r0, s0, he0, hok0, -, -⟩ := chainOk_pop_back h
    rw [he0] at he
    injection he with hpair
    injection hpair with hr hs
    exact hs ▸ chainOk_biConsistent hok0

/-- Witness for C1 at a concrete two-element deque. -/
theorem c1_deque_biconsistent_witness :
    ChainOk (BadSafeDeque.push_front (BadSafeDeque.new : BadSafeDeque Int) 1)
      [0] ∧
    (biConsistent (BadSafeDeque.push_front (BadSafeDeque.new : BadSafeDeque Int) 1) ∧
     biConsistent (BadSafeDeque.push_front
       (BadSafeDeque.push_front (BadSafeDeque.new : BadSafeDeque Int) 1) 7) ∧
     biConsistent (BadSafeDeque.push_back
       (BadSafeDeque.push_front (BadSafeDeque.new : BadSafeDeque Int) 1) 7) ∧
     (∀ r s', BadSafeDeque.pop_front
        (BadSafeDeque.push_front (BadSafeDeque.new : BadSafeDeque Int) 1) =
          some (r, s') → biConsistent s') ∧
     (∀ r s', BadSafeDeque.pop_back
        (BadSafeDeque.push_front (BadSafeDeque.new : BadSafeDeque Int) 1) =
          some (r, s') → biConsistent s')) :=
  ⟨by decide,
    @c1_deque_biconsistent Int
      (BadSafeDeque.push_front BadSafeDeque.new 1) [0] (by decide) 7⟩

/-- C2: popping a singleton deque from either end returns its element and
clears both end fields, leaving the deque empty, so that a further pop on
either end returns the absent value; this holds for any singleton chain
state, however it was built. -/
theorem c2_singleton_pop {s : BadSafeDeque α} {n : Nat} {nd : DNode α}
    (h : ChainOk s [n]) (hl : List.lookup n s.heap = some nd) :
    (∃ s', BadSafeDeque.pop_front s = some (some nd.elem, s') ∧
      s'.head = none ∧ s'.tail = none ∧
      BadSafeDeque.pop_front s' = some (none, s') ∧
      BadSafeDeque.pop_back s' = some (none, s')) ∧
    (∃ s'', BadSafeDeque.pop_back s = some (some nd.elem, s'') ∧
      s''.head = none ∧ s''.tail = none ∧
      BadSafeDeque.pop_front s'' = some (none, s'') ∧
      BadSafeDeque.pop_back s'' = some (none, s'')) := by
  constructor
  · obtain ⟨r, s', he, hok, -, hchar⟩ := chainOk_pop_front h
    obtain ⟨nd0, hl0, hr⟩ := hchar n [] rfl
    rw [hl] at hl0
    injection hl0 with hnd0
    subst hnd0
    have hh : s'.head = none := hok.2.2.1
    have ht : s'.tail = none := hok.2.2.2.1
    refine ⟨s', hr ▸ he, hh, ht, ?_, ?_⟩
    · simp [BadSafeDeque.pop_front, hh]
    · simp [BadSafeDeque.pop_back, ht]
  · obtain ⟨r, s'', he, hok, -, hchar⟩ := chainOk_pop_back h
    obtain ⟨nd0, hl0, hr⟩ := hchar n rfl
    rw [hl] at hl0
    injection hl0 with hnd0
    subst hnd0
    have hh : s''.head = none := hok.2.2.1
    have ht : s''.tail = none := hok.2.2.2.1
    refine ⟨s'', hr ▸ he, hh, ht, ?_, ?_⟩
    · simp [BadSafeDeque.pop_front, hh]
    · simp [BadSafeDeque.pop_back, ht]

/-- Witness for C2 at a singleton deque built by `push_back`. -/
theorem c2_singleton_pop_witness :
    ChainOk (BadSafeDeque.push_back (BadSafeDeque.new : BadSafeDeque Int) 7)
      [0] ∧
    (∃ s', BadSafeDeque.pop_front
        (BadSafeDeque.push_back (BadSafeDeque.new : BadSafeDeque Int) 7) =
        some (some (7 : Int), s') ∧
      s'.head = none ∧ s'.tail = none ∧
      BadSafeDeque.pop_front s' = some (none, s') ∧
      BadSafeDeque.pop_back s' = some (none, s')) :=
  ⟨by decide,
    (@c2_singleton_pop Int (BadSafeDeque.push_back BadSafeDeque.new 7) 0
      ⟨7, none, none⟩ (by decide) (by decide)).1⟩

/-- C9: on every reachable deque state, a complete `pop_front` or `pop_back`
never hits the panicking branch: in particular the modeled
`Rc::try_unwrap(..).ok().unwrap()` on the detached node always succeeds,
because no other structural reference to that node remains at the moment of
extraction. -/
theorem c9_pop_never_panics {s : BadSafeDeque α} (h : Reachable s) :
    BadSafeDeque.pop_front s ≠ none ∧ BadSafeDeque.pop_back s ≠ none := by
  obtain ⟨ids, hok⟩ := reachable_chainOk h
  obtain ⟨r1, s1, he1, -, -⟩ := chainOk_pop_front hok
  obtain ⟨r2, s2, he2, -, -⟩ := chainOk_pop_back hok
  exact ⟨by rw [he1]; simp, by rw [he2]; simp⟩

/-- Witness for C9 on a concrete reachable state. -/
theorem c9_pop_never_panics_witness :
    BadSafeDeque.pop_front
      (BadSafeDeque.push_front (BadSafeDeque.new : BadSafeDeque Int) 1) ≠
      none ∧
    BadSafeDeque.pop_back
      (BadSafeDeque.push_front (BadSafeDeque.new : BadSafeDeque Int) 1) ≠
      none :=
  c9_pop_never_panics
    (Reachable.push_front BadSafeDeque.new 1 Reachable.new)

/-- C8: for every component, pop and peek on the empty container return the
absent value rather than a failure, and the container is left empty — the
returned state is the empty container itself, so repeating the operation
keeps returning absent. -/
theorem c8_empty_pop_absent (α : Type) :
    OkStack.pop (OkStack.new : OkStack α) = (none, OkStack.new) ∧
    OkStack.peek (OkStack.new : OkStack α) = none ∧
    BadStack.pop BadStack.new = (none, BadStack.new) ∧
    OkUnsafeQueue.pop (OkUnsafeQueue.new : OkUnsafeQueue α) =
      some (none, OkUnsafeQueue.new) ∧
    BadSafeDeque.pop_front (BadSafeDeque.new : BadSafeDeque α) =
      some (none, BadSafeDeque.new) ∧
    BadSafeDeque.pop_back (BadSafeDeque.new : BadSafeDeque α) =
      some (none, BadSafeDeque.new) ∧
    BadSafeDeque.peek_front (BadSafeDeque.new : BadSafeDeque α) = none ∧
    BadSafeDeque.peek_back (BadSafeDeque.new : BadSafeDeque α) = none ∧
    (∀ h : PHeap α, PersistentStack.headElem PersistentStack.new h = none) :=
  ⟨rfl, rfl, rfl, rfl, rfl, rfl, rfl, rfl, fun _ => rfl⟩

end LinkedLists
